import Mathlib

/-!
# RTP AMR depacketizer (libavformat/rtpdec.c): shallow embedding

The C functions of `src/libavformat/rtpdec.c` as Lean functions over `Nat`
bytes.  `uint8_t` arithmetic is written with an explicit `% 256`.  The
payload pointer `buf` is a function from byte offsets to bytes: offsets at
and beyond the declared length `len` are whatever follows the payload in
the receive buffer.  Every `buf[i]` the code evaluates is recorded in
`reads`, every `*ptr++ = x` in `out`.

The declared length `len` (a C `int`) is a `Nat`: a negative length fails
the first test of both loops, as length 0 does.  The stack array
`toc_item_array` starts as all zeros; the code reads an element only after
it has stored it.  A loop whose fuel runs out yields `none` (or
`Flow.diverged`); the theorems below state results as `some _`.
-/

namespace AMR

/-! ## Tables (lines 27-48) -/

/-- Frame byte lengths, narrowband (line 27). -/
def frame_sizes_nb : List Nat := [12, 13, 15, 17, 19, 20, 26, 31, 5, 0, 0, 0, 0, 0, 0, 0]

/-- Frame byte lengths, wideband (line 30). -/
def frame_sizes_wb : List Nat := [17, 23, 32, 36, 40, 46, 50, 58, 60, 5, 5, 0, 0, 0, 0, 0]

/-- Payload bit lengths, narrowband (line 35). -/
def frame_sizes_nb_bandwidth_efficient : List Nat :=
  [95, 103, 118, 134, 148, 159, 204, 244, 39, 0, 0, 0, 0, 0, 0, 0]

/-- Payload bit lengths, wideband (line 38). -/
def frame_sizes_wb_bandwidth_efficient : List Nat :=
  [132, 177, 253, 285, 317, 365, 397, 461, 477, 40, 40, 0, 0, 0, 0, 0]

/-- Filler bit counts, narrowband (line 43). -/
def frame_sizes_nb_add_bandwidth_efficient : List Nat :=
  [1, 1, 2, 2, 4, 1, 4, 4, 1, 0, 0, 0, 0, 0, 0, 0]

/-- Filler bit counts, wideband (line 46). -/
def frame_sizes_wb_add_bandwidth_efficient : List Nat :=
  [4, 7, 3, 3, 3, 3, 3, 3, 3, 0, 0, 0, 0, 0, 0, 0]

/-- Codec identity of the stream (`st->codecpar->codec_id`); every id other
than the two AMR ones is `OTHER`. -/
inductive AVCodecID where
  | AV_CODEC_ID_AMR_NB
  | AV_CODEC_ID_AMR_WB
  | OTHER
  deriving DecidableEq, Repr

/-- The value of `AVERROR_INVALIDDATA` (libavutil/error.h, not part of the
sources at hand): `-MKTAG('I','N','D','A')`. -/
def AVERROR_INVALIDDATA : Int := -1094995529

/-! ## removeLowZeros (lines 58-69) -/

/-- The `while ((input & mask) == 0) input >>= 1;` loop of `removeLowZeros`
on a `uint8_t`.  `none` when the loop has not ended within the fuel. -/
def removeLowZeros_loop : Nat → Nat → Option Nat
  | 0, _ => none
  | fuel + 1, input =>
    if input &&& 0x01 = 0 then removeLowZeros_loop fuel ((input >>> 1) % 256)
    else some input

/-- Function `removeLowZeros` (line 58): 0 for 0, otherwise the input shifted right
until its lowest bit is set.  Eight loop tests serve every nonzero byte. -/
def removeLowZeros (input : Nat) : Option Nat :=
  if input = 0x00 then some 0x00 else removeLowZeros_loop 8 input

/-! ## Loop state -/

/-- How a loop that contains a `return` was left. -/
inductive Flow (σ : Type) where
  | fallthrough (s : σ)
  | returned (code : Int) (s : σ)
  | diverged

/-- Locals of the TOC scan (lines 120-126 / 281-288). -/
structure TocScan where
  toc_item_array : Nat → Nat
  toc_item_count : Nat
  toc_item_threshold : Nat
  toc_item : Nat
  end_tag : Nat
  cur_bit : Nat
  sid_count : Nat
  buf_index : Nat
  reads : List Nat

/-- End of one pass of the TOC loop body, lines 151-159 / 313-328, and the
loop's `cur_bit >>= 1`: count the bit down and, when the entry is complete,
store it (bandwidth-efficient: shifted left by 2, and counted in
`sid_count` when its type is 9). -/
def toc_entry_end (be : Bool) (s : TocScan) : TocScan :=
  let toc_item_threshold := (s.toc_item_threshold + 255) % 256
  let s2 : TocScan :=
    if toc_item_threshold = 0 then
      let toc_item := if be then (s.toc_item <<< 2) % 256 else s.toc_item
      let toc_item_ft := (toc_item &&& 0x7C) >>> 3
      { s with
          sid_count := if be ∧ toc_item_ft = 9 then (s.sid_count + 1) % 256 else s.sid_count
          toc_item_array := Function.update s.toc_item_array s.toc_item_count toc_item
          toc_item_count := (s.toc_item_count + 1) % 256
          toc_item_threshold := if be then 6 else 8
          toc_item := 0x00 }
    else
      { s with toc_item_threshold := toc_item_threshold }
  { s2 with cur_bit := s2.cur_bit >>> 1 }

/-- The TOC scan loop, lines 127-160 (`be = false`, entries of 8 bits) and
lines 289-329 (`be = true`, entries of 6 bits).  The two loops are the same
text but for the entry width and the block run at the end of an entry.
`Flow.diverged` when the fuel is used up. -/
def toc_loop (be : Bool) (buf : Nat → Nat) (len : Nat) : Nat → TocScan → Flow TocScan
  | 0, _ => Flow.diverged
  | fuel + 1, s =>
    let width := if be then 6 else 8
    if s.buf_index < len ∧ s.buf_index < 1024 ∧
        (s.toc_item_threshold ≠ width ∨ s.end_tag ≠ 0) then
      -- lowest bit, move to next buf's highest bit
      let cur_bit := if s.cur_bit = 0x00 then 0x80 else s.cur_bit
      let buf_index := if s.cur_bit = 0x00 then s.buf_index + 1 else s.buf_index
      let toc_item_bit := cur_bit &&& (buf buf_index % 256)
      let s1 : TocScan :=
        { s with cur_bit := cur_bit, buf_index := buf_index, reads := s.reads ++ [buf_index] }
      if s.toc_item_threshold = width then
        -- get F
        match removeLowZeros toc_item_bit with
        | none => Flow.diverged
        | some end_tag =>
          toc_loop be buf len fuel (toc_entry_end be
            { s1 with end_tag := end_tag
                      toc_item := ((s.toc_item <<< 1) % 256 + end_tag) % 256 })
      else if s.toc_item_threshold ≥ 1 ∧ s.toc_item_threshold ≤ width - 1 then
        -- calculate FT
        match removeLowZeros toc_item_bit with
        | none => Flow.diverged
        | some bit =>
          toc_loop be buf len fuel (toc_entry_end be
            { s1 with toc_item := ((s.toc_item <<< 1) % 256 + bit) % 256 })
      else
        Flow.returned AVERROR_INVALIDDATA s1
    else
      Flow.fallthrough s

/-- Locals of the frame copy (lines 176-177 / 349-350) with the bit cursor
left by the scan, the bytes stored through `ptr` and the offsets read. -/
structure Emit where
  cur_bit : Nat
  buf_index : Nat
  audio_data : Nat
  audio_data_index : Nat
  out : List Nat
  reads : List Nat

/-- Shift one bit into `audio_data` and store the byte when it is full
(lines 199-208 / 374-385 and 221-230 / 398-409); `store` is false where the
store is skipped (`toc_item_ft == 9` in the bandwidth-efficient handler). -/
def push_bit (store : Bool) (bit : Nat) (e : Emit) : Emit :=
  let audio_data := ((e.audio_data <<< 1) % 256 + bit) % 256
  let audio_data_index := (e.audio_data_index + 255) % 256
  if audio_data_index ≤ 0 then
    { e with audio_data := 0x00, audio_data_index := 8
             out := if store then e.out ++ [audio_data] else e.out }
  else
    { e with audio_data := audio_data, audio_data_index := audio_data_index }

/-- The payload loop, lines 191-209 / 366-386; the first argument is the
number of passes `frame_size_index` still allows. -/
def frame_loop (store : Bool) (buf : Nat → Nat) (len : Nat) : Nat → Emit → Option Emit
  | 0, e => some e
  | n + 1, e =>
    if e.buf_index < len then
      let cur_bit := if e.cur_bit = 0x00 then 0x80 else e.cur_bit
      let buf_index := if e.cur_bit = 0x00 then e.buf_index + 1 else e.buf_index
      match removeLowZeros (cur_bit &&& (buf buf_index % 256)) with
      | none => none
      | some bit_value =>
        match removeLowZeros bit_value with
        | none => none
        | some bit =>
          let e1 := push_bit store bit
            { e with cur_bit := cur_bit, buf_index := buf_index, reads := e.reads ++ [buf_index] }
          frame_loop store buf len n { e1 with cur_bit := e1.cur_bit >>> 1 }
    else some e

/-- The filler loop, lines 212-231 / 389-410; the first argument is the
number of passes `zero_frame_size_index` still allows. -/
def zero_loop (store : Bool) : Nat → Emit → Option Emit
  | 0, e => some e
  | n + 1, e =>
    let cur_bit := if e.cur_bit = 0x00 then 0x80 else e.cur_bit
    let buf_index := if e.cur_bit = 0x00 then e.buf_index + 1 else e.buf_index
    match removeLowZeros 0x00 with
    | none => none
    | some bit =>
      let e1 := push_bit store bit { e with cur_bit := cur_bit, buf_index := buf_index }
      zero_loop store n { e1 with cur_bit := e1.cur_bit >>> 1 }

/-- The loop over the stored TOC entries, lines 178-234 (`be = false`) and
351-420 (`be = true`): `n` passes are left, the next one is `toc_index`. -/
def toc_index_loop (be : Bool) (frame_sizes frame_add_sizes : List Nat) (buf : Nat → Nat)
    (len : Nat) (toc_item_array : Nat → Nat) : Nat → Nat → Emit → Option Emit
  | 0, _, e => some e
  | n + 1, toc_index, e =>
    let toc_item_mode := toc_item_array toc_index &&& 0x7C
    let toc_item_ft := toc_item_mode >>> 3
    let store := !be || toc_item_ft != 9
    let e1 := if store then { e with out := e.out ++ [toc_item_mode] } else e
    match frame_loop store buf len (frame_sizes.getD toc_item_ft 0) e1 with
    | none => none
    | some e2 =>
      match zero_loop store (frame_add_sizes.getD toc_item_ft 0) e2 with
      | none => none
      | some e3 =>
        let e4 :=
          if be ∧ toc_item_ft = 9 then
            { e3 with out := e3.out ++ 0x44 :: List.replicate 60 0x00 }
          else e3
        toc_index_loop be frame_sizes frame_add_sizes buf len toc_item_array n (toc_index + 1) e4

/-- What a handler call leaves: the return code, the size the output packet
was allocated with (when `av_new_packet` was reached and succeeded), the
bytes stored through `ptr` in order, and the offsets of `buf` read. -/
structure Result where
  ret : Int
  pkt_size : Option Int
  out : List Nat
  reads : List Nat
  deriving DecidableEq, Repr

/-- The body shared by the two handlers, lines 83-236 (`be = false`) and
244-422 (`be = true`).  `av_new_packet` gives the return code of the
allocation for a requested size (libavcodec, not part of these sources). -/
def amr_handle_packet_mode (be : Bool) (av_new_packet : Int → Int) (codec_id : AVCodecID)
    (nb_channels : Int) (buf : Nat → Nat) (len : Nat) : Option Result :=
  let tables : Option (List Nat × List Nat) :=
    match codec_id with
    | AVCodecID.AV_CODEC_ID_AMR_NB =>
      some (frame_sizes_nb_bandwidth_efficient, frame_sizes_nb_add_bandwidth_efficient)
    | AVCodecID.AV_CODEC_ID_AMR_WB =>
      some (frame_sizes_wb_bandwidth_efficient, frame_sizes_wb_add_bandwidth_efficient)
    | AVCodecID.OTHER => none
  match tables with
  | none => some { ret := AVERROR_INVALIDDATA, pkt_size := none, out := [], reads := [] }
  | some (frame_sizes, frame_add_sizes) =>
    if nb_channels ≠ 1 then
      some { ret := AVERROR_INVALIDDATA, pkt_size := none, out := [], reads := [] }
    else
      let init : TocScan :=
        { toc_item_array := fun _ => 0
          toc_item_count := 0
          toc_item_threshold := if be then 6 else 8
          toc_item := 0x00
          end_tag := 1
          cur_bit := if be then 0x08 else 0x80
          sid_count := 0
          buf_index := if be then 0 else 1
          reads := [] }
      match toc_loop be buf len (8 * len + 8) init with
      | Flow.diverged => none
      | Flow.returned code s =>
        some { ret := code, pkt_size := none, out := [], reads := s.reads }
      | Flow.fallthrough s =>
        if s.end_tag ≠ 0 ∨ s.buf_index > len then
          some { ret := AVERROR_INVALIDDATA, pkt_size := none, out := [], reads := s.reads }
        else
          let add_len : Int := 55 * (s.sid_count : Int) - 1
          let size : Int :=
            if be then (len : Int) + (if add_len > 0 then add_len else 0) else (len : Int) - 1
          let ret := av_new_packet size
          if ret < 0 then
            some { ret := ret, pkt_size := none, out := [], reads := s.reads }
          else
            let e : Emit :=
              { cur_bit := s.cur_bit, buf_index := s.buf_index
                audio_data := 0x00, audio_data_index := 8, out := [], reads := s.reads }
            match toc_index_loop be frame_sizes frame_add_sizes buf len s.toc_item_array
                s.toc_item_count 0 e with
            | none => none
            | some e1 =>
              some { ret := 0, pkt_size := some size, out := e1.out, reads := e1.reads }

/-- Handler `amr_handle_packet_octet_aligned` (line 77). -/
def amr_handle_packet_octet_aligned (av_new_packet : Int → Int) (codec_id : AVCodecID)
    (nb_channels : Int) (buf : Nat → Nat) (len : Nat) : Option Result :=
  amr_handle_packet_mode false av_new_packet codec_id nb_channels buf len

/-- Handler `amr_handle_packet_bandwidth_efficient` (line 238). -/
def amr_handle_packet_bandwidth_efficient (av_new_packet : Int → Int) (codec_id : AVCodecID)
    (nb_channels : Int) (buf : Nat → Nat) (len : Nat) : Option Result :=
  amr_handle_packet_mode true av_new_packet codec_id nb_channels buf len

/-- Function `amr_handle_packet` (line 424): dispatch on `data->octet_align`. -/
def amr_handle_packet (octet_align : Int) (av_new_packet : Int → Int) (codec_id : AVCodecID)
    (nb_channels : Int) (buf : Nat → Nat) (len : Nat) : Option Result :=
  if octet_align ≠ 0 then
    amr_handle_packet_octet_aligned av_new_packet codec_id nb_channels buf len
  else
    amr_handle_packet_bandwidth_efficient av_new_packet codec_id nb_channels buf len

/-! ## Session configuration (lines 50-55, 71-75, 438-486) -/

/-- The C struct `PayloadContext` (lines 50-55). -/
structure PayloadContext where
  octet_align : Int
  crc : Int
  interleaving : Int
  channels : Int
  deriving DecidableEq, Repr

/-- Function `amr_init` (line 71): sets `channels` to 1 and returns 0. -/
def amr_init (data : PayloadContext) : PayloadContext × Int :=
  ({ data with channels := 1 }, 0)

/-- Digits of `atoi`: the decimal value of the leading digits, on top of `acc`. -/
def atoi_digits : List Char → Int → Int
  | [], acc => acc
  | c :: cs, acc =>
    if '0' ≤ c ∧ c ≤ '9' then atoi_digits cs (10 * acc + ((c.toNat : Int) - 48)) else acc

/-- The value `strtol` gives for a decimal value: beyond a 64-bit `long` it
is LONG_MAX or LONG_MIN. -/
def strtol_clamp (v : Int) : Int :=
  if 9223372036854775807 < v then 9223372036854775807
  else if v < -9223372036854775808 then -9223372036854775808
  else v

/-- Conversion of a `long` to `int`: the low 32 bits, read as two's
complement. -/
def int_of_long (v : Int) : Int := (v + 2147483648) % 4294967296 - 2147483648

/-- The C library function `atoi` (not part of these sources), as the GNU C
library gives it where `long` has 64 bits, `(int) strtol (s, NULL, 10)`:
leading white space, an optional sign, then decimal digits (0 when there
are none); the value is clamped to `long` and converted to `int`, so
"2147483648" gives -2147483648 and "4294967297" gives 1. -/
def atoi (s : String) : Int :=
  match s.data.dropWhile (fun c => c = ' ' ∨ ('\t' ≤ c ∧ c ≤ '\r')) with
  | '-' :: cs => int_of_long (strtol_clamp (- atoi_digits cs 0))
  | '+' :: cs => int_of_long (strtol_clamp (atoi_digits cs 0))
  | cs => int_of_long (strtol_clamp (atoi_digits cs 0))

/-- Function `amr_parse_fmtp` (line 438): an empty value is read as "1"; the
field named by `attr` is set to `atoi(value)`; the return code is 0. -/
def amr_parse_fmtp (data : PayloadContext) (attr value : String) : PayloadContext × Int :=
  let value := if value = "" then "1" else value
  if attr = "octet-align" then ({ data with octet_align := atoi value }, 0)
  else if attr = "crc" then ({ data with crc := atoi value }, 0)
  else if attr = "interleaving" then ({ data with interleaving := atoi value }, 0)
  else if attr = "channels" then ({ data with channels := atoi value }, 0)
  else (data, 0)

/-- The libavutil function `av_strstart` (not part of these sources): when
`str` starts with `pfx`, the rest of `str` behind it. -/
def av_strstart : List Char → List Char → Option (List Char)
  | str, [] => some str
  | [], _ :: _ => none
  | c :: str, p :: pfx => if c = p then av_strstart str pfx else none

/-- Modelled from the spec: `ff_parse_fmtp`, a function of libavformat that
these sources call and do not hold.  It takes the attribute/value pairs of
an fmtp line (`key=value; key=value`) one by one, hands each to the callback
and stops with the callback's code when that is negative; otherwise it
returns 0.  The pairs are given by `pairs`. -/
def ff_parse_fmtp (data : PayloadContext)
    (parse_fmtp : PayloadContext → String → String → PayloadContext × Int) :
    List (String × String) → PayloadContext × Int
  | [] => (data, 0)
  | (attr, value) :: pairs =>
    let r := parse_fmtp data attr value
    if r.2 < 0 then r else ff_parse_fmtp r.1 parse_fmtp pairs

/-- Function `amr_parse_sdp_line` (line 462).  `tokens` gives the
attribute/value pairs that `ff_parse_fmtp` finds in the text behind
"fmtp:". -/
def amr_parse_sdp_line (tokens : List Char → List (String × String)) (st_index : Int)
    (data : PayloadContext) (line : String) : PayloadContext × Int :=
  if st_index < 0 then (data, 0)
  else
    match av_strstart line.data "fmtp:".data with
    | some p =>
      let r := ff_parse_fmtp data amr_parse_fmtp (tokens p)
      if r.1.crc ≠ 0 ∨ r.1.interleaving ≠ 0 ∨ r.1.channels ≠ 1 then (r.1, -1) else r
    | none => (data, 0)

/-! ## Helpers for statements -/

/-- A payload given by its bytes; offsets past them read as `pad`. -/
def mem (bytes : List Nat) (pad : Nat) : Nat → Nat := fun i => bytes.getD i pad

/-! ## Bit positions -/

/-- Bit `p` of the memory at `buf`, counted from the top bit of byte 0. -/
def bitAt (buf : Nat → Nat) (p : Nat) : Bool := (buf (p / 8) % 256).testBit (7 - p % 8)

/-- The bits at positions `p`, ..., `p + n - 1`. -/
def bitsAt (buf : Nat → Nat) (p n : Nat) : List Bool := (List.range' p n).map (bitAt buf)

/-- Value of `cur_bit` when the next bit to read is bit `q` and at least one
bit was read before: the mask already shifted, 0 at a byte boundary. -/
def cbit (q : Nat) : Nat := if q % 8 = 0 then 0 else 2 ^ (7 - q % 8)

/-- Value of `buf_index` when the next bit to read is bit `q` and at least
one bit was read before: the byte of the bit before. -/
def bidx (q : Nat) : Nat := (q - 1) / 8

/-- The byte whose bits, top bit first, are the first eight of `bs`; bits
that `bs` lacks are 0. -/
def byteOfBits (bs : List Bool) : Nat :=
  128 * (bs.getD 0 false).toNat + 64 * (bs.getD 1 false).toNat + 32 * (bs.getD 2 false).toNat
    + 16 * (bs.getD 3 false).toNat + 8 * (bs.getD 4 false).toNat + 4 * (bs.getD 5 false).toNat
    + 2 * (bs.getD 6 false).toNat + (bs.getD 7 false).toNat

/-- A bit string packed into bytes, top bit first, the last byte filled up
with zero bits. -/
def packBits (bs : List Bool) : List Nat :=
  (List.range ((bs.length + 7) / 8)).map (fun k => byteOfBits (bs.drop (8 * k)))

/-- The TOC entry whose first bit is bit `q`, as the scan stores it: the
eight bits of an octet-aligned entry, the six bits of a bandwidth-efficient
one followed by two zero bits. -/
def tocEntry (be : Bool) (buf : Nat → Nat) (q : Nat) : Nat :=
  byteOfBits (bitsAt buf q (if be then 6 else 8))

/-- Frame type of a stored TOC entry (`(toc_item & 0x7C) >> 3`). -/
def tocFt (t : Nat) : Nat := (t &&& 0x7C) >>> 3

/-- Number of entries of frame type 9 among the `n` bandwidth-efficient TOC
entries that start at bit `q`. -/
def sidCount (buf : Nat → Nat) : Nat → Nat → Nat
  | _, 0 => 0
  | q, n + 1 => (if tocFt (tocEntry true buf q) = 9 then 1 else 0) + sidCount buf (q + 6) n

/-- The byte being assembled, the count of bits it still lacks and the
bytes stored so far: the part of `Emit` that `push_bit` works on. -/
structure Writer where
  audio_data : Nat
  audio_data_index : Nat
  out : List Nat

/-- What `push_bit` does to the writer fields for one bit. -/
def Writer.push (store : Bool) (w : Writer) (b : Bool) : Writer :=
  if (w.audio_data_index + 255) % 256 ≤ 0 then
    ⟨0, 8, if store then w.out ++ [((w.audio_data <<< 1) % 256 + b.toNat) % 256] else w.out⟩
  else
    ⟨((w.audio_data <<< 1) % 256 + b.toNat) % 256, (w.audio_data_index + 255) % 256, w.out⟩

/-- The writer after the bits `bs`, first bit first. -/
def Writer.pushAll (store : Bool) (w : Writer) (bs : List Bool) : Writer :=
  bs.foldl (Writer.push store) w

/-- The payload bit-length table the handlers select for a codec (lines
88-97 / 249-258). -/
def frameSizes : AVCodecID → List Nat
  | AVCodecID.AV_CODEC_ID_AMR_NB => frame_sizes_nb_bandwidth_efficient
  | AVCodecID.AV_CODEC_ID_AMR_WB => frame_sizes_wb_bandwidth_efficient
  | AVCodecID.OTHER => []

/-- The filler bit-count table the handlers select for a codec. -/
def frameAddSizes : AVCodecID → List Nat
  | AVCodecID.AV_CODEC_ID_AMR_NB => frame_sizes_nb_add_bandwidth_efficient
  | AVCodecID.AV_CODEC_ID_AMR_WB => frame_sizes_wb_add_bandwidth_efficient
  | AVCodecID.OTHER => []

/-- Payload bit length of frame type `ft` (`frame_sizes[toc_item_ft]`). -/
def payloadBits (codec_id : AVCodecID) (ft : Nat) : Nat := (frameSizes codec_id).getD ft 0

/-- Filler bit count of frame type `ft` (`frame_add_sizes[toc_item_ft]`). -/
def padBits (codec_id : AVCodecID) (ft : Nat) : Nat := (frameAddSizes codec_id).getD ft 0

/-- The locals of a handler when its TOC loop is entered. -/
def tocInit (be : Bool) : TocScan :=
  ⟨fun _ => 0, 0, if be then 6 else 8, 0, 1, if be then 0x08 else 0x80, 0, if be then 0 else 1, []⟩

/-- The size a handler asks `av_new_packet` for (line 169 / lines 338-339). -/
def allocSize (be : Bool) (len sid_count : Nat) : Int :=
  if be then
    (len : Int) + (if 55 * (sid_count : Int) - 1 > 0 then 55 * (sid_count : Int) - 1 else 0)
  else (len : Int) - 1

/-- The four bits of `x`, top bit first. -/
def nibble (x : Nat) : List Bool := [x.testBit 3, x.testBit 2, x.testBit 1, x.testBit 0]

/-- The bit string of a bandwidth-efficient packet with one frame: the
4-bit mode request `c`, the TOC entry (F = 0, frame type `ft`, quality bit
`q`) and the payload bits `d`. -/
def beSingleFrameBits (c ft : Nat) (q : Bool) (d : List Bool) : List Bool :=
  nibble c ++ (false :: nibble ft ++ [q]) ++ d

/-- The bytes of an octet-aligned packet: the mode-request byte, the TOC
bytes of the entries, then their frames. -/
def oaPacket (cmr : Nat) (entries : List (Nat × List Nat)) : List Nat :=
  cmr :: entries.map Prod.fst ++ (entries.map Prod.snd).flatten

/-- Position of the first bit of TOC entry `i`: behind the mode-request
byte in octet-aligned mode, behind the 4-bit mode request otherwise. -/
def tocStart (be : Bool) (i : Nat) : Nat := if be then 4 + 6 * i else 8 + 8 * i

/-- The last continuation bit read when the scan stands `j` bits into entry
`i`: the F bit of entry `i` when `j > 0`, of entry `i - 1` when `j = 0`;
the initial value 1 of `end_tag` when no bit was read yet. -/
def lastF (be : Bool) (buf : Nat → Nat) (i j : Nat) : Nat :=
  if 0 < j then (bitAt buf (tocStart be i)).toNat
  else if 0 < i then (bitAt buf (tocStart be (i - 1))).toNat
  else 1

/-- The scan stands `j` bits into TOC entry `i`: the bit counter is the
entry width less `j`, the cursor reads bit `tocStart be i + j` next,
`end_tag` holds the last continuation bit read, and once a bit was read
`buf_index` is at most `len`. -/
def ScanInv (be : Bool) (buf : Nat → Nat) (len : Nat) (s : TocScan) (i j : Nat) : Prop :=
  j < (if be then 6 else 8) ∧
  s.toc_item_threshold = (if be then 6 else 8) - j ∧
  (if s.cur_bit = 0 then 128 else s.cur_bit) = 2 ^ (7 - (tocStart be i + j) % 8) ∧
  (if s.cur_bit = 0 then s.buf_index + 1 else s.buf_index) = (tocStart be i + j) / 8 ∧
  s.end_tag = lastF be buf i j ∧
  ((i = 0 ∧ j = 0) ∨ s.buf_index ≤ len)

/-- Bits shifted into a `uint8_t` one by one, as `toc_item` collects them. -/
def itemAcc (item : Nat) (bs : List Bool) : Nat :=
  bs.foldl (fun a b => ((a <<< 1) % 256 + b.toNat) % 256) item

/-- What the scan has stored when it stands `j` bits into TOC entry `i`:
`toc_item` collects the `j` bits read of entry `i`, `toc_item_count` is `i`
modulo 256 and, while no more than 255 entries are complete, element `k` of
`toc_item_array` is entry `k` for every `k < i`. -/
def ScanStored (be : Bool) (buf : Nat → Nat) (s : TocScan) (i j : Nat) : Prop :=
  s.toc_item = itemAcc 0 (bitsAt buf (tocStart be i) j) ∧
  s.toc_item_count = i % 256 ∧
  (i ≤ 255 → ∀ k < i, s.toc_item_array k = tocEntry be buf (tocStart be k))

/-- The number of trailing zero bits of an 8-bit value, in the words of the
specification: how many of the bits 0, 1, ..., 7, taken from the lowest on,
are zero before the first one that is set (8 for the value 0). -/
def trailingZeroBits (x : Nat) : Nat :=
  ((List.range 8).takeWhile (fun i => !x.testBit i)).length

end AMR

namespace AMR

/-! ## The bit reads -/

set_option maxRecDepth 1000000 in
theorem removeLowZeros_mask_aux :
    ∀ j < 8, ∀ x < 256, removeLowZeros (2 ^ j &&& x) = some (x.testBit j).toNat := by
  decide

theorem removeLowZeros_mask (j x : Nat) (hj : j < 8) :
    removeLowZeros (2 ^ j &&& (x % 256)) = some ((x % 256).testBit j).toNat :=
  removeLowZeros_mask_aux j hj (x % 256) (Nat.mod_lt _ (by norm_num))

theorem removeLowZeros_bit (b : Bool) : removeLowZeros b.toNat = some b.toNat := by
  cases b <;> rfl

theorem removeLowZeros_read (buf : Nat → Nat) (q : Nat) :
    removeLowZeros (2 ^ (7 - q % 8) &&& (buf (q / 8) % 256)) = some (bitAt buf q).toNat :=
  removeLowZeros_mask _ _ (by omega)

/-! ## The bit cursor -/

theorem cbit_wrap (q : Nat) : (if cbit q = 0 then 128 else cbit q) = 2 ^ (7 - q % 8) := by
  have h : q % 8 < 8 := Nat.mod_lt _ (by norm_num)
  unfold cbit
  interval_cases h' : q % 8 <;> simp

theorem bidx_wrap (q : Nat) (hq : 1 ≤ q) :
    (if cbit q = 0 then bidx q + 1 else bidx q) = q / 8 := by
  have h : q % 8 < 8 := Nat.mod_lt _ (by norm_num)
  unfold cbit bidx
  interval_cases h' : q % 8 <;> simp <;> omega

theorem cbit_shift (q : Nat) : 2 ^ (7 - q % 8) >>> 1 = cbit (q + 1) := by
  have h : q % 8 < 8 := Nat.mod_lt _ (by norm_num)
  unfold cbit
  interval_cases h' : q % 8
  · have h2 : (q + 1) % 8 = 1 := by omega
    simp [h2]
  · have h2 : (q + 1) % 8 = 2 := by omega
    simp [h2]
  · have h2 : (q + 1) % 8 = 3 := by omega
    simp [h2]
  · have h2 : (q + 1) % 8 = 4 := by omega
    simp [h2]
  · have h2 : (q + 1) % 8 = 5 := by omega
    simp [h2]
  · have h2 : (q + 1) % 8 = 6 := by omega
    simp [h2]
  · have h2 : (q + 1) % 8 = 7 := by omega
    simp [h2]
  · have h2 : (q + 1) % 8 = 0 := by omega
    simp [h2]

theorem bidx_succ (q : Nat) : bidx (q + 1) = q / 8 := by
  simp [bidx]

theorem bidx_lt (q len : Nat) (h : q ≤ 8 * len) (hq : 1 ≤ q) : bidx q < len := by
  unfold bidx; omega

/-! ## The TOC scan, one pass at a time -/

theorem cursor_le (cb bi q : Nat) (hbi : (if cb = 0 then bi + 1 else bi) = q / 8) :
    bi ≤ q / 8 := by
  split at hbi <;> omega

/-- One pass of the TOC loop from a cursor that reads bit `q` next. -/
theorem toc_loop_step (be : Bool) (buf : Nat → Nat) (len fuel : Nat) (arr : Nat → Nat)
    (cnt thr item et cb sid bi : Nat) (rd : List Nat) (q : Nat)
    (hcb : (if cb = 0 then 128 else cb) = 2 ^ (7 - q % 8))
    (hbi : (if cb = 0 then bi + 1 else bi) = q / 8)
    (hlen : q / 8 < len) (hcap : q / 8 < 1024)
    (hgo : thr ≠ (if be then 6 else 8) ∨ et ≠ 0)
    (hthr : 1 ≤ thr ∧ thr ≤ (if be then 6 else 8)) :
    toc_loop be buf len (fuel + 1) ⟨arr, cnt, thr, item, et, cb, sid, bi, rd⟩ =
      toc_loop be buf len fuel (toc_entry_end be
        ⟨arr, cnt, thr, ((item <<< 1) % 256 + (bitAt buf q).toNat) % 256,
          if thr = (if be then 6 else 8) then (bitAt buf q).toNat else et,
          2 ^ (7 - q % 8), sid, q / 8, rd ++ [q / 8]⟩) := by
  have hle := cursor_le cb bi q hbi
  have hlen' : bi < len := by omega
  have hcap' : bi < 1024 := by omega
  rw [toc_loop]
  simp only [hlen', hcap', hgo, and_self, if_true, hcb, hbi, removeLowZeros_read]
  by_cases h : thr = (if be then 6 else 8)
  · simp [h]
  · have h2 : thr ≤ (if be then 6 else 8) - 1 := by omega
    simp [h, h2, hthr.1]

theorem toc_entry_end_mid (be : Bool) (arr : Nat → Nat) (cnt thr item et sid b : Nat)
    (rd : List Nat) (q : Nat) (hthr : 2 ≤ thr ∧ thr ≤ 8) :
    toc_entry_end be ⟨arr, cnt, thr, item, et, 2 ^ (7 - q % 8), sid, b, rd⟩ =
      ⟨arr, cnt, thr - 1, item, et, cbit (q + 1), sid, b, rd⟩ := by
  have h1 : (thr + 255) % 256 = thr - 1 := by omega
  have h2 : thr - 1 ≠ 0 := by omega
  simp [toc_entry_end, h1, h2, cbit_shift]

theorem toc_entry_end_last (be : Bool) (arr : Nat → Nat) (cnt item et sid b : Nat)
    (rd : List Nat) (q : Nat) :
    toc_entry_end be ⟨arr, cnt, 1, item, et, 2 ^ (7 - q % 8), sid, b, rd⟩ =
      ⟨Function.update arr cnt (if be then (item <<< 2) % 256 else item), (cnt + 1) % 256,
        if be then 6 else 8, 0, et, cbit (q + 1),
        if be ∧ ((if be then (item <<< 2) % 256 else item) &&& 0x7C) >>> 3 = 9
          then (sid + 1) % 256 else sid, b, rd⟩ := by
  simp [toc_entry_end, cbit_shift]

/-- Passes `q`, ..., `q + k` of the TOC loop when the entry does not end
within them. -/
theorem toc_loop_bits (be : Bool) (buf : Nat → Nat) (len : Nat) (arr : Nat → Nat)
    (cnt sid : Nat) (k : Nat) :
    ∀ (fuel thr item et cb bi : Nat) (rd : List Nat) (q : Nat),
      (if cb = 0 then 128 else cb) = 2 ^ (7 - q % 8) →
      (if cb = 0 then bi + 1 else bi) = q / 8 →
      (q + k) / 8 < len → (q + k) / 8 < 1024 →
      (thr ≠ (if be then 6 else 8) ∨ et ≠ 0) →
      k + 2 ≤ thr → thr ≤ (if be then 6 else 8) →
      toc_loop be buf len (fuel + (k + 1)) ⟨arr, cnt, thr, item, et, cb, sid, bi, rd⟩ =
        toc_loop be buf len fuel
          ⟨arr, cnt, thr - (k + 1), itemAcc item (bitsAt buf q (k + 1)),
            if thr = (if be then 6 else 8) then (bitAt buf q).toNat else et,
            cbit (q + (k + 1)), sid, bidx (q + (k + 1)),
            rd ++ (List.range' q (k + 1)).map (· / 8)⟩ := by
  induction k with
  | zero =>
    intro fuel thr item et cb bi rd q hcb hbi hlen hcap hgo hk hthr
    have hw : (if be then 6 else 8) ≤ 8 := by split <;> omega
    rw [toc_loop_step be buf len fuel arr cnt thr item et cb sid bi rd q hcb hbi
      (by simpa using hlen) (by simpa using hcap) hgo ⟨by omega, hthr⟩]
    rw [toc_entry_end_mid be arr cnt thr _ _ sid _ _ q ⟨by omega, by omega⟩]
    simp [itemAcc, bitsAt, bidx]
  | succ k ih =>
    intro fuel thr item et cb bi rd q hcb hbi hlen hcap hgo hk hthr
    have hw : (if be then 6 else 8) ≤ 8 := by split <;> omega
    have e1 : fuel + (k + 1 + 1) = (fuel + (k + 1)) + 1 := by omega
    rw [e1, toc_loop_step be buf len _ arr cnt thr item et cb sid bi rd q hcb hbi
      (by omega) (by omega) hgo ⟨by omega, hthr⟩]
    rw [toc_entry_end_mid be arr cnt thr _ _ sid _ _ q ⟨by omega, by omega⟩]
    have hb : q / 8 = bidx (q + 1) := (bidx_succ q).symm
    rw [hb]
    rw [ih fuel (thr - 1) _ _ (cbit (q + 1)) (bidx (q + 1)) _ (q + 1) (cbit_wrap _)
      (bidx_wrap _ (by omega)) (by rw [show q + 1 + k = q + (k + 1) by omega]; exact hlen)
      (by rw [show q + 1 + k = q + (k + 1) by omega]; exact hcap)
      (Or.inl (by omega)) (by omega) (by omega)]
    have h3 : thr - 1 ≠ (if be then 6 else 8) := by omega
    have e2 : q + 1 + (k + 1) = q + (k + 1 + 1) := by omega
    have e3 : thr - 1 - (k + 1) = thr - (k + 1 + 1) := by omega
    rw [if_neg h3, e2, e3]
    simp [itemAcc, bitsAt, List.range', bidx]

theorem itemAcc_octet (b0 b1 b2 b3 b4 b5 b6 b7 : Bool) :
    ((itemAcc 0 [b0, b1, b2, b3, b4, b5, b6] <<< 1) % 256 + b7.toNat) % 256 =
      byteOfBits [b0, b1, b2, b3, b4, b5, b6, b7] := by
  cases b0 <;> cases b1 <;> cases b2 <;> cases b3 <;> cases b4 <;> cases b5 <;> cases b6 <;>
    cases b7 <;> rfl

theorem itemAcc_six (b0 b1 b2 b3 b4 b5 : Bool) :
    ((((itemAcc 0 [b0, b1, b2, b3, b4] <<< 1) % 256 + b5.toNat) % 256) <<< 2) % 256 =
      byteOfBits [b0, b1, b2, b3, b4, b5] := by
  cases b0 <;> cases b1 <;> cases b2 <;> cases b3 <;> cases b4 <;> cases b5 <;> rfl

/-- The passes of the TOC loop over one whole entry that starts at bit `q`. -/
theorem toc_loop_entry (be : Bool) (buf : Nat → Nat) (len : Nat) (arr : Nat → Nat)
    (cnt sid fuel et cb bi : Nat) (rd : List Nat) (q : Nat)
    (hcb : (if cb = 0 then 128 else cb) = 2 ^ (7 - q % 8))
    (hbi : (if cb = 0 then bi + 1 else bi) = q / 8)
    (hlen : (q + (if be then 6 else 8) - 1) / 8 < len)
    (hcap : (q + (if be then 6 else 8) - 1) / 8 < 1024)
    (het : et ≠ 0) :
    toc_loop be buf len (fuel + (if be then 6 else 8))
        ⟨arr, cnt, if be then 6 else 8, 0, et, cb, sid, bi, rd⟩ =
      toc_loop be buf len fuel
        ⟨Function.update arr cnt (tocEntry be buf q), (cnt + 1) % 256,
          if be then 6 else 8, 0, (bitAt buf q).toNat, cbit (q + (if be then 6 else 8)),
          if be ∧ (tocEntry be buf q &&& 0x7C) >>> 3 = 9 then (sid + 1) % 256 else sid,
          bidx (q + (if be then 6 else 8)),
          rd ++ (List.range' q (if be then 6 else 8)).map (· / 8)⟩ := by
  cases be
  · simp only [Bool.false_eq_true, if_false] at hlen hcap ⊢
    have e1 : fuel + 8 = (fuel + 1) + (6 + 1) := by omega
    rw [e1, toc_loop_bits false buf len arr cnt sid 6 (fuel + 1) 8 0 et cb bi rd q hcb hbi
      (by omega) (by omega) (Or.inr het) (by omega) (by simp)]
    rw [toc_loop_step false buf len fuel arr cnt _ _ _ _ sid _ _ (q + 7) (cbit_wrap _)
      (bidx_wrap _ (by omega)) (by omega) (by omega) (Or.inl (by simp)) (by simp)]
    simp only [Bool.false_eq_true, if_false, Nat.reduceSub, OfNat.ofNat_ne_one,
      show (8 : Nat) - (6 + 1) = 1 by rfl]
    rw [toc_entry_end_last]
    simp only [Bool.false_eq_true, if_false, false_and, tocEntry, bitsAt, List.range',
      List.map, itemAcc_octet, if_true, Nat.reduceAdd, Nat.add_assoc]
    have e2 : (q + 7) / 8 = bidx (q + 8) := by simp [bidx]
    rw [e2]
    simp
  · simp only [if_true] at hlen hcap ⊢
    have e1 : fuel + 6 = (fuel + 1) + (4 + 1) := by omega
    rw [e1, toc_loop_bits true buf len arr cnt sid 4 (fuel + 1) 6 0 et cb bi rd q hcb hbi
      (by omega) (by omega) (Or.inr het) (by omega) (by simp)]
    rw [toc_loop_step true buf len fuel arr cnt _ _ _ _ sid _ _ (q + 5) (cbit_wrap _)
      (bidx_wrap _ (by omega)) (by omega) (by omega) (Or.inl (by simp)) (by simp)]
    simp only [if_true, Nat.reduceSub, OfNat.ofNat_ne_one,
      show (6 : Nat) - (4 + 1) = 1 by rfl]
    rw [toc_entry_end_last]
    simp only [if_true, true_and, tocEntry, bitsAt, List.range',
      List.map, itemAcc_six, Nat.reduceAdd, Nat.add_assoc]
    have e2 : (q + 5) / 8 = bidx (q + 6) := by simp [bidx]
    rw [e2]
    simp

theorem toc_loop_stop (be : Bool) (buf : Nat → Nat) (len fuel : Nat) (arr : Nat → Nat)
    (cnt cb sid bi : Nat) (rd : List Nat) :
    toc_loop be buf len (fuel + 1) ⟨arr, cnt, if be then 6 else 8, 0, 0, cb, sid, bi, rd⟩ =
      Flow.fallthrough ⟨arr, cnt, if be then 6 else 8, 0, 0, cb, sid, bi, rd⟩ := by
  rw [toc_loop]
  simp

theorem sidCount_le (buf : Nat → Nat) (n : Nat) : ∀ q, sidCount buf q n ≤ n := by
  induction n with
  | zero => intro q; simp [sidCount]
  | succ n ih =>
    intro q
    have := ih (q + 6)
    simp only [sidCount]
    split <;> omega

/-- The bandwidth-efficient scan over a chain of `k + 1` entries that lies
inside the buffer: all but the last have F = 1, the last has F = 0. -/
theorem toc_loop_chain_be (buf : Nat → Nat) (len : Nat) (k : Nat) :
    ∀ (arr : Nat → Nat) (cnt sid fuel et cb bi : Nat) (rd : List Nat) (q : Nat),
      (if cb = 0 then 128 else cb) = 2 ^ (7 - q % 8) →
      (if cb = 0 then bi + 1 else bi) = q / 8 →
      et ≠ 0 →
      (q + 6 * (k + 1) - 1) / 8 < len → (q + 6 * (k + 1) - 1) / 8 < 1024 →
      cnt + (k + 1) ≤ 255 → sid ≤ cnt →
      (∀ i < k, bitAt buf (q + 6 * i) = true) → bitAt buf (q + 6 * k) = false →
      6 * (k + 1) + 1 ≤ fuel →
      ∃ arr' rd', toc_loop true buf len fuel ⟨arr, cnt, 6, 0, et, cb, sid, bi, rd⟩ =
          Flow.fallthrough ⟨arr', cnt + (k + 1), 6, 0, 0, cbit (q + 6 * (k + 1)),
            sid + sidCount buf q (k + 1), bidx (q + 6 * (k + 1)), rd'⟩ ∧
        (∀ i < cnt, arr' i = arr i) ∧
        (∀ i ≤ k, arr' (cnt + i) = tocEntry true buf (q + 6 * i)) := by
  induction k with
  | zero =>
    intro arr cnt sid fuel et cb bi rd q hcb hbi het hlen hcap hcnt hsid _ hlast hfuel
    obtain ⟨f, rfl⟩ : ∃ f, fuel = (f + 1) + 6 := ⟨fuel - 7, by omega⟩
    have h := toc_loop_entry true buf len arr cnt sid (f + 1) et cb bi rd q hcb hbi
      (by simpa using hlen) (by simpa using hcap) het
    simp only [if_true, true_and] at h
    have hF : bitAt buf q = false := by simpa using hlast
    have hc : (cnt + 1) % 256 = cnt + 1 := Nat.mod_eq_of_lt (by omega)
    have hs : (sid + 1) % 256 = sid + 1 := Nat.mod_eq_of_lt (by omega)
    rw [h, hF, hc, hs]
    have h2 := toc_loop_stop true buf len f (Function.update arr cnt (tocEntry true buf q))
      (cnt + 1) (cbit (q + 6))
      (if (tocEntry true buf q &&& 0x7C) >>> 3 = 9 then sid + 1 else sid) (bidx (q + 6))
      (rd ++ (List.range' q 6).map (· / 8))
    simp only [if_true] at h2
    refine ⟨Function.update arr cnt (tocEntry true buf q),
      rd ++ (List.range' q 6).map (· / 8), ?_, ?_, ?_⟩
    · rw [show (false : Bool).toNat = 0 by rfl, h2]
      simp only [sidCount, tocFt, Nat.add_zero, Nat.mul_one]
      congr 2
      split <;> rfl
    · intro i hi
      simp [Function.update, Nat.ne_of_lt hi]
    · intro i hi
      have : i = 0 := by omega
      subst this
      simp
  | succ k ih =>
    intro arr cnt sid fuel et cb bi rd q hcb hbi het hlen hcap hcnt hsid hmore hlast hfuel
    obtain ⟨f, rfl⟩ : ∃ f, fuel = f + 6 := ⟨fuel - 6, by omega⟩
    have h := toc_loop_entry true buf len arr cnt sid f et cb bi rd q hcb hbi
      (by simp only [if_true]; omega) (by simp only [if_true]; omega) het
    simp only [if_true, true_and] at h
    have hF : bitAt buf q = true := by simpa using hmore 0 (by omega)
    have hc : (cnt + 1) % 256 = cnt + 1 := Nat.mod_eq_of_lt (by omega)
    have hs : (sid + 1) % 256 = sid + 1 := Nat.mod_eq_of_lt (by omega)
    rw [h, hF, hc, hs]
    obtain ⟨arr', rd', h1, h2, h3⟩ := ih (Function.update arr cnt (tocEntry true buf q)) (cnt + 1)
      (if (tocEntry true buf q &&& 0x7C) >>> 3 = 9 then sid + 1 else sid) f
      (true : Bool).toNat (cbit (q + 6)) (bidx (q + 6))
      (rd ++ (List.range' q 6).map (· / 8)) (q + 6) (cbit_wrap _) (bidx_wrap _ (by omega))
      (by simp) (by rw [show q + 6 + 6 * (k + 1) - 1 = q + 6 * (k + 1 + 1) - 1 by omega]; exact hlen)
      (by rw [show q + 6 + 6 * (k + 1) - 1 = q + 6 * (k + 1 + 1) - 1 by omega]; exact hcap)
      (by omega) (by split <;> omega)
      (fun i hi => by
        have := hmore (i + 1) (by omega)
        rwa [show q + 6 * (i + 1) = q + 6 + 6 * i by omega] at this)
      (by rwa [show q + 6 * (k + 1) = q + 6 + 6 * k by omega] at hlast)
      (by omega)
    refine ⟨arr', rd', ?_, ?_, ?_⟩
    · rw [h1]
      have e1 : q + 6 + 6 * (k + 1) = q + 6 * (k + 1 + 1) := by omega
      have e2 : cnt + 1 + (k + 1) = cnt + (k + 1 + 1) := by omega
      rw [e1, e2]
      congr 2
      rw [sidCount.eq_2 buf q (k + 1)]
      simp only [tocFt]
      split <;> omega
    · intro i hi
      rw [h2 i (by omega)]
      simp [Function.update, Nat.ne_of_lt hi]
    · intro i hi
      rcases Nat.eq_zero_or_pos i with h0 | hpos
      · subst h0
        rw [Nat.add_zero, h2 cnt (by omega)]
        simp
      · have := h3 (i - 1) (by omega)
        rw [show cnt + 1 + (i - 1) = cnt + i by omega,
          show q + 6 + 6 * (i - 1) = q + 6 * i by omega] at this
        exact this

/-- The octet-aligned scan over a chain of `k + 1` entries that lies inside
the buffer: all but the last have F = 1, the last has F = 0. -/
theorem toc_loop_chain_oa (buf : Nat → Nat) (len : Nat) (k : Nat) :
    ∀ (arr : Nat → Nat) (cnt sid fuel et cb bi : Nat) (rd : List Nat) (q : Nat),
      (if cb = 0 then 128 else cb) = 2 ^ (7 - q % 8) →
      (if cb = 0 then bi + 1 else bi) = q / 8 →
      et ≠ 0 →
      (q + 8 * (k + 1) - 1) / 8 < len → (q + 8 * (k + 1) - 1) / 8 < 1024 →
      cnt + (k + 1) ≤ 255 →
      (∀ i < k, bitAt buf (q + 8 * i) = true) → bitAt buf (q + 8 * k) = false →
      8 * (k + 1) + 1 ≤ fuel →
      ∃ arr' rd', toc_loop false buf len fuel ⟨arr, cnt, 8, 0, et, cb, sid, bi, rd⟩ =
          Flow.fallthrough ⟨arr', cnt + (k + 1), 8, 0, 0, cbit (q + 8 * (k + 1)),
            sid, bidx (q + 8 * (k + 1)), rd'⟩ ∧
        (∀ i < cnt, arr' i = arr i) ∧
        (∀ i ≤ k, arr' (cnt + i) = tocEntry false buf (q + 8 * i)) := by
  induction k with
  | zero =>
    intro arr cnt sid fuel et cb bi rd q hcb hbi het hlen hcap hcnt _ hlast hfuel
    obtain ⟨f, rfl⟩ : ∃ f, fuel = (f + 1) + 8 := ⟨fuel - 9, by omega⟩
    have h := toc_loop_entry false buf len arr cnt sid (f + 1) et cb bi rd q hcb hbi
      (by simpa using hlen) (by simpa using hcap) het
    simp only [Bool.false_eq_true, if_false, false_and] at h
    have hF : bitAt buf q = false := by simpa using hlast
    have hc : (cnt + 1) % 256 = cnt + 1 := Nat.mod_eq_of_lt (by omega)
    rw [h, hF, hc]
    have h2 := toc_loop_stop false buf len f (Function.update arr cnt (tocEntry false buf q))
      (cnt + 1) (cbit (q + 8)) sid (bidx (q + 8)) (rd ++ (List.range' q 8).map (· / 8))
    simp only [Bool.false_eq_true, if_false] at h2
    refine ⟨Function.update arr cnt (tocEntry false buf q),
      rd ++ (List.range' q 8).map (· / 8), ?_, ?_, ?_⟩
    · rw [show (false : Bool).toNat = 0 by rfl, h2]
    · intro i hi
      simp [Function.update, Nat.ne_of_lt hi]
    · intro i hi
      have : i = 0 := by omega
      subst this
      simp
  | succ k ih =>
    intro arr cnt sid fuel et cb bi rd q hcb hbi het hlen hcap hcnt hmore hlast hfuel
    obtain ⟨f, rfl⟩ : ∃ f, fuel = f + 8 := ⟨fuel - 8, by omega⟩
    have h := toc_loop_entry false buf len arr cnt sid f et cb bi rd q hcb hbi
      (by simp only [Bool.false_eq_true, if_false]; omega)
      (by simp only [Bool.false_eq_true, if_false]; omega) het
    simp only [Bool.false_eq_true, if_false, false_and] at h
    have hF : bitAt buf q = true := by simpa using hmore 0 (by omega)
    have hc : (cnt + 1) % 256 = cnt + 1 := Nat.mod_eq_of_lt (by omega)
    rw [h, hF, hc]
    obtain ⟨arr', rd', h1, h2, h3⟩ := ih (Function.update arr cnt (tocEntry false buf q))
      (cnt + 1) sid f (true : Bool).toNat (cbit (q + 8)) (bidx (q + 8))
      (rd ++ (List.range' q 8).map (· / 8)) (q + 8) (cbit_wrap _) (bidx_wrap _ (by omega))
      (by simp) (by rw [show q + 8 + 8 * (k + 1) - 1 = q + 8 * (k + 1 + 1) - 1 by omega]; exact hlen)
      (by rw [show q + 8 + 8 * (k + 1) - 1 = q + 8 * (k + 1 + 1) - 1 by omega]; exact hcap)
      (by omega)
      (fun i hi => by
        have := hmore (i + 1) (by omega)
        rwa [show q + 8 * (i + 1) = q + 8 + 8 * i by omega] at this)
      (by rwa [show q + 8 * (k + 1) = q + 8 + 8 * k by omega] at hlast)
      (by omega)
    refine ⟨arr', rd', ?_, ?_, ?_⟩
    · rw [h1]
      have e1 : q + 8 + 8 * (k + 1) = q + 8 * (k + 1 + 1) := by omega
      have e2 : cnt + 1 + (k + 1) = cnt + (k + 1 + 1) := by omega
      rw [e1, e2]
    · intro i hi
      rw [h2 i (by omega)]
      simp [Function.update, Nat.ne_of_lt hi]
    · intro i hi
      rcases Nat.eq_zero_or_pos i with h0 | hpos
      · subst h0
        rw [Nat.add_zero, h2 cnt (by omega)]
        simp
      · have := h3 (i - 1) (by omega)
        rw [show cnt + 1 + (i - 1) = cnt + i by omega,
          show q + 8 + 8 * (i - 1) = q + 8 * i by omega] at this
        exact this

/-! ## The frame copy -/

theorem push_bit_eq (store : Bool) (b : Bool) (cb bi ad adi : Nat) (out rd : List Nat) :
    push_bit store b.toNat ⟨cb, bi, ad, adi, out, rd⟩ =
      ⟨cb, bi, (Writer.push store ⟨ad, adi, out⟩ b).audio_data,
        (Writer.push store ⟨ad, adi, out⟩ b).audio_data_index,
        (Writer.push store ⟨ad, adi, out⟩ b).out, rd⟩ := by
  unfold push_bit Writer.push
  dsimp only
  split <;> rfl

/-- The payload loop over `n` bits that lie inside the buffer. -/
theorem frame_loop_bits (store : Bool) (buf : Nat → Nat) (len : Nat) (n : Nat) :
    ∀ (q ad adi : Nat) (out rd : List Nat), 1 ≤ q → q + n ≤ 8 * len →
      frame_loop store buf len n ⟨cbit q, bidx q, ad, adi, out, rd⟩ =
        some ⟨cbit (q + n), bidx (q + n),
          (Writer.pushAll store ⟨ad, adi, out⟩ (bitsAt buf q n)).audio_data,
          (Writer.pushAll store ⟨ad, adi, out⟩ (bitsAt buf q n)).audio_data_index,
          (Writer.pushAll store ⟨ad, adi, out⟩ (bitsAt buf q n)).out,
          rd ++ (List.range' q n).map (· / 8)⟩ := by
  induction n with
  | zero =>
    intro q ad adi out rd _ _
    simp [frame_loop, Writer.pushAll, bitsAt]
  | succ n ih =>
    intro q ad adi out rd hq hlen
    have hb : bidx q < len := bidx_lt q len (by omega) hq
    rw [frame_loop]
    simp only [hb, if_true, cbit_wrap, bidx_wrap q hq, removeLowZeros_read,
      removeLowZeros_bit, push_bit_eq, cbit_shift]
    rw [← bidx_succ q, ih (q + 1) _ _ _ _ (by omega) (by omega)]
    simp [Writer.pushAll, bitsAt, List.range', bidx, Nat.add_assoc, Nat.add_comm 1 n]

/-- The filler loop. -/
theorem zero_loop_bits (store : Bool) (n : Nat) :
    ∀ (q ad adi : Nat) (out rd : List Nat), 1 ≤ q →
      zero_loop store n ⟨cbit q, bidx q, ad, adi, out, rd⟩ =
        some ⟨cbit (q + n), bidx (q + n),
          (Writer.pushAll store ⟨ad, adi, out⟩ (List.replicate n false)).audio_data,
          (Writer.pushAll store ⟨ad, adi, out⟩ (List.replicate n false)).audio_data_index,
          (Writer.pushAll store ⟨ad, adi, out⟩ (List.replicate n false)).out, rd⟩ := by
  induction n with
  | zero =>
    intro q ad adi out rd _
    simp [zero_loop, Writer.pushAll]
  | succ n ih =>
    intro q ad adi out rd hq
    rw [zero_loop]
    have h0 : removeLowZeros 0 = some (false : Bool).toNat := rfl
    simp only [cbit_wrap, bidx_wrap q hq, h0, push_bit_eq, cbit_shift]
    rw [← bidx_succ q, ih (q + 1) _ _ _ _ (by omega)]
    simp [Writer.pushAll, List.replicate, Nat.add_assoc, Nat.add_comm 1 n]

/-! ## Packing -/

theorem packBits_nil : packBits [] = [] := rfl

theorem packBits_cons8 (b0 b1 b2 b3 b4 b5 b6 b7 : Bool) (rest : List Bool) :
    packBits (b0 :: b1 :: b2 :: b3 :: b4 :: b5 :: b6 :: b7 :: rest) =
      byteOfBits [b0, b1, b2, b3, b4, b5, b6, b7] :: packBits rest := by
  unfold packBits
  have h : ((b0 :: b1 :: b2 :: b3 :: b4 :: b5 :: b6 :: b7 :: rest).length + 7) / 8 =
      (rest.length + 7) / 8 + 1 := by
    simp only [List.length_cons]; omega
  rw [h, List.range_succ_eq_map, List.map_cons, List.map_map]
  congr 1

theorem push_mid (ad adi : Nat) (out : List Nat) (b : Bool) (h : 2 ≤ adi ∧ adi ≤ 8) :
    Writer.push true ⟨ad, adi, out⟩ b = ⟨((ad <<< 1) % 256 + b.toNat) % 256, adi - 1, out⟩ := by
  have h1 : (adi + 255) % 256 = adi - 1 := by omega
  have h2 : ¬ (adi - 1 ≤ 0) := by omega
  simp [Writer.push, h1, h2]

theorem push_last (ad : Nat) (out : List Nat) (b : Bool) :
    Writer.push true ⟨ad, 1, out⟩ b = ⟨0, 8, out ++ [((ad <<< 1) % 256 + b.toNat) % 256]⟩ := by
  simp [Writer.push]

theorem pushAll_cons8 (b0 b1 b2 b3 b4 b5 b6 b7 : Bool) (rest : List Bool) (out : List Nat) :
    Writer.pushAll true ⟨0, 8, out⟩ (b0 :: b1 :: b2 :: b3 :: b4 :: b5 :: b6 :: b7 :: rest) =
      Writer.pushAll true ⟨0, 8, out ++ [byteOfBits [b0, b1, b2, b3, b4, b5, b6, b7]]⟩ rest := by
  simp only [Writer.pushAll, List.foldl_cons]
  rw [push_mid _ 8 _ _ (by omega), push_mid _ (8 - 1) _ _ (by omega),
    push_mid _ (8 - 1 - 1) _ _ (by omega), push_mid _ (8 - 1 - 1 - 1) _ _ (by omega),
    push_mid _ (8 - 1 - 1 - 1 - 1) _ _ (by omega),
    push_mid _ (8 - 1 - 1 - 1 - 1 - 1) _ _ (by omega),
    push_mid _ (8 - 1 - 1 - 1 - 1 - 1 - 1) _ _ (by omega), push_last]
  have h := itemAcc_octet b0 b1 b2 b3 b4 b5 b6 b7
  simp only [itemAcc, List.foldl_cons, List.foldl_nil] at h
  rw [h]

/-- Whole bytes pushed into an empty writer come out packed. -/
theorem pushAll_pack (m : Nat) : ∀ (bs : List Bool) (out : List Nat), bs.length = 8 * m →
    Writer.pushAll true ⟨0, 8, out⟩ bs = ⟨0, 8, out ++ packBits bs⟩ := by
  induction m with
  | zero =>
    intro bs out h
    have : bs = [] := List.length_eq_zero.mp (by omega)
    subst this
    simp [Writer.pushAll, packBits_nil]
  | succ m ih =>
    intro bs out h
    match bs, h with
    | b0 :: b1 :: b2 :: b3 :: b4 :: b5 :: b6 :: b7 :: rest, h =>
      rw [pushAll_cons8, packBits_cons8, ih rest _ (by simp only [List.length_cons] at h; omega)]
      simp

/-- Where nothing is stored the output stays as it is. -/
theorem pushAll_nostore_out (bs : List Bool) : ∀ w : Writer,
    (Writer.pushAll false w bs).out = w.out := by
  induction bs with
  | nil => intro w; rfl
  | cons b bs ih =>
    intro w
    have h : Writer.pushAll false w (b :: bs) = Writer.pushAll false (Writer.push false w b) bs :=
      rfl
    rw [h, ih]
    unfold Writer.push
    split <;> rfl

theorem pushAll_append (store : Bool) (w : Writer) (as bs : List Bool) :
    Writer.pushAll store w (as ++ bs) = Writer.pushAll store (Writer.pushAll store w as) bs := by
  simp [Writer.pushAll, List.foldl_append]

/-! ## The loops always come to an end -/

set_option maxRecDepth 1000000 in
theorem removeLowZeros_total_aux :
    ∀ x < 256, (removeLowZeros x).isSome = true ∧ (removeLowZeros x).getD 0 < 256 := by
  decide

theorem removeLowZeros_total (x : Nat) (hx : x < 256) :
    ∃ v, removeLowZeros x = some v ∧ v < 256 := by
  have h := removeLowZeros_total_aux x hx
  cases hv : removeLowZeros x with
  | none => simp [hv] at h
  | some v => exact ⟨v, rfl, by simpa [hv] using h.2⟩

theorem and_byte_lt (c x : Nat) : c &&& (x % 256) < 256 :=
  Nat.lt_of_le_of_lt Nat.and_le_right (Nat.mod_lt _ (by norm_num))

theorem push_bit_out (bit : Nat) (e : Emit) : (push_bit false bit e).out = e.out := by
  unfold push_bit
  dsimp only
  split <;> simp

theorem frame_loop_total (store : Bool) (buf : Nat → Nat) (len : Nat) (n : Nat) :
    ∀ e : Emit, ∃ e', frame_loop store buf len n e = some e' ∧
      (store = false → e'.out = e.out) := by
  induction n with
  | zero => intro e; exact ⟨e, rfl, fun _ => rfl⟩
  | succ n ih =>
    intro e
    rw [frame_loop]
    split
    · obtain ⟨v, hv, hlt⟩ := removeLowZeros_total _
        (and_byte_lt (if e.cur_bit = 0 then 128 else e.cur_bit)
          (buf (if e.cur_bit = 0 then e.buf_index + 1 else e.buf_index)))
      obtain ⟨v2, hv2, _⟩ := removeLowZeros_total v hlt
      simp only [hv, hv2]
      obtain ⟨e', he', ho⟩ := ih _
      refine ⟨e', he', fun hs => ?_⟩
      subst hs
      rw [ho rfl]
      exact push_bit_out _ _
    · exact ⟨e, rfl, fun _ => rfl⟩

theorem zero_loop_total (store : Bool) (n : Nat) :
    ∀ e : Emit, ∃ e', zero_loop store n e = some e' ∧ (store = false → e'.out = e.out) := by
  induction n with
  | zero => intro e; exact ⟨e, rfl, fun _ => rfl⟩
  | succ n ih =>
    intro e
    rw [zero_loop]
    have h0 : removeLowZeros 0 = some 0 := rfl
    simp only [h0]
    obtain ⟨e', he', ho⟩ := ih _
    refine ⟨e', he', fun hs => ?_⟩
    subst hs
    rw [ho rfl]
    exact push_bit_out _ _

theorem toc_index_loop_total (be : Bool) (frame_sizes frame_add_sizes : List Nat)
    (buf : Nat → Nat) (len : Nat) (arr : Nat → Nat) (n : Nat) :
    ∀ (j : Nat) (e : Emit),
      ∃ e', toc_index_loop be frame_sizes frame_add_sizes buf len arr n j e = some e' := by
  induction n with
  | zero => intro j e; exact ⟨e, rfl⟩
  | succ n ih =>
    intro j e
    rw [toc_index_loop]
    dsimp only
    obtain ⟨e2, h2, _⟩ := frame_loop_total (!be || (arr j &&& 124) >>> 3 != 9) buf len
      (frame_sizes.getD ((arr j &&& 124) >>> 3) 0)
      (if (!be || (arr j &&& 124) >>> 3 != 9) = true then
        { e with out := e.out ++ [arr j &&& 124] } else e)
    obtain ⟨e3, h3, _⟩ := zero_loop_total (!be || (arr j &&& 124) >>> 3 != 9)
      (frame_add_sizes.getD ((arr j &&& 124) >>> 3) 0) e2
    simp only [h2, h3]
    exact ih _ _

/-! ## From the loops to the handlers -/

/-- A handler call whose scan falls through with F = 0 and whose allocation
succeeds returns 0 with what the loop over the entries stored. -/
theorem handle_packet_of_scan (be : Bool) (av_new_packet : Int → Int) (codec_id : AVCodecID)
    (buf : Nat → Nat) (len : Nat) (s : TocScan) (e1 : Emit)
    (hcodec : codec_id ≠ AVCodecID.OTHER)
    (hscan : toc_loop be buf len (8 * len + 8) (tocInit be) = Flow.fallthrough s)
    (het : s.end_tag = 0) (hbi : s.buf_index ≤ len)
    (halloc : 0 ≤ av_new_packet (allocSize be len s.sid_count))
    (hemit : toc_index_loop be (frameSizes codec_id) (frameAddSizes codec_id) buf len
      s.toc_item_array s.toc_item_count 0 ⟨s.cur_bit, s.buf_index, 0, 8, [], s.reads⟩ = some e1) :
    amr_handle_packet_mode be av_new_packet codec_id 1 buf len =
      some ⟨0, some (allocSize be len s.sid_count), e1.out, e1.reads⟩ := by
  have hscan' := hscan
  unfold tocInit at hscan'
  have hn : ¬ av_new_packet (allocSize be len s.sid_count) < 0 := by omega
  have hb : ¬ s.buf_index > len := by omega
  unfold allocSize at hn
  cases codec_id with
  | OTHER => exact absurd rfl hcodec
  | AV_CODEC_ID_AMR_NB =>
    simp only [frameSizes, frameAddSizes] at hemit
    simp only [amr_handle_packet_mode, hscan', het, hb, ne_eq, not_true_eq_false, or_self,
      if_false, hn, hemit, allocSize]
  | AV_CODEC_ID_AMR_WB =>
    simp only [frameSizes, frameAddSizes] at hemit
    simp only [amr_handle_packet_mode, hscan', het, hb, ne_eq, not_true_eq_false, or_self,
      if_false, hn, hemit, allocSize]

theorem be_scan (buf : Nat → Nat) (len n : Nat) (hn : 1 ≤ n) (hn255 : n ≤ 255)
    (hmore : ∀ i, i + 1 < n → bitAt buf (4 + 6 * i) = true)
    (hlast : bitAt buf (4 + 6 * (n - 1)) = false)
    (hlen : 4 + 6 * n ≤ 8 * len) :
    ∃ arr rd, toc_loop true buf len (8 * len + 8) (tocInit true) =
        Flow.fallthrough ⟨arr, n, 6, 0, 0, cbit (4 + 6 * n), sidCount buf 4 n,
          bidx (4 + 6 * n), rd⟩ ∧
      ∀ i < n, arr i = tocEntry true buf (4 + 6 * i) := by
  obtain ⟨k, rfl⟩ : ∃ k, n = k + 1 := ⟨n - 1, by omega⟩
  obtain ⟨arr, rd, h1, _, h3⟩ := toc_loop_chain_be buf len k (fun _ => 0) 0 0 (8 * len + 8) 1 8 0
    [] 4 (by decide) (by decide) (by decide) (by omega) (by omega) (by omega) (by omega)
    (fun i hi => hmore i (by omega)) (by simpa using hlast) (by omega)
  refine ⟨arr, rd, ?_, ?_⟩
  · simpa [tocInit] using h1
  · intro i hi
    simpa using h3 i (by omega)

theorem oa_scan (buf : Nat → Nat) (len n : Nat) (hn : 1 ≤ n) (hn255 : n ≤ 255)
    (hmore : ∀ i, i + 1 < n → bitAt buf (8 + 8 * i) = true)
    (hlast : bitAt buf (8 + 8 * (n - 1)) = false)
    (hlen : 8 + 8 * n ≤ 8 * len) :
    ∃ arr rd, toc_loop false buf len (8 * len + 8) (tocInit false) =
        Flow.fallthrough ⟨arr, n, 8, 0, 0, cbit (8 + 8 * n), 0, bidx (8 + 8 * n), rd⟩ ∧
      ∀ i < n, arr i = tocEntry false buf (8 + 8 * i) := by
  obtain ⟨k, rfl⟩ : ∃ k, n = k + 1 := ⟨n - 1, by omega⟩
  obtain ⟨arr, rd, h1, _, h3⟩ := toc_loop_chain_oa buf len k (fun _ => 0) 0 0 (8 * len + 8) 1 128 1
    [] 8 (by decide) (by decide) (by decide) (by omega) (by omega) (by omega)
    (fun i hi => hmore i (by omega)) (by simpa using hlast) (by omega)
  refine ⟨arr, rd, ?_, ?_⟩
  · simpa [tocInit] using h1
  · intro i hi
    simpa using h3 i (by omega)

/-- A packet whose TOC chain of `n` entries ends inside the buffer is
accepted by the bandwidth-efficient handler, whatever its frame types. -/
theorem be_accept (av_new_packet : Int → Int) (codec_id : AVCodecID) (buf : Nat → Nat)
    (len n : Nat) (hcodec : codec_id ≠ AVCodecID.OTHER) (hn : 1 ≤ n) (hn255 : n ≤ 255)
    (hmore : ∀ i, i + 1 < n → bitAt buf (4 + 6 * i) = true)
    (hlast : bitAt buf (4 + 6 * (n - 1)) = false)
    (hlen : 4 + 6 * n ≤ 8 * len)
    (halloc : 0 ≤ av_new_packet (allocSize true len (sidCount buf 4 n))) :
    ∃ r, amr_handle_packet_mode true av_new_packet codec_id 1 buf len = some r ∧ r.ret = 0 ∧
      r.pkt_size = some (allocSize true len (sidCount buf 4 n)) := by
  obtain ⟨arr, rd, hscan, _⟩ := be_scan buf len n hn hn255 hmore hlast hlen
  obtain ⟨e1, he1⟩ := toc_index_loop_total true (frameSizes codec_id) (frameAddSizes codec_id)
    buf len arr n 0 ⟨cbit (4 + 6 * n), bidx (4 + 6 * n), 0, 8, [], rd⟩
  have h := handle_packet_of_scan true av_new_packet codec_id buf len _ e1 hcodec hscan rfl
    (by show bidx (4 + 6 * n) ≤ len; unfold bidx; omega) halloc he1
  exact ⟨_, h, rfl, rfl⟩

/-- A packet whose TOC chain of `n` entries ends inside the buffer is
accepted by the octet-aligned handler, whatever its frame types. -/
theorem oa_accept (av_new_packet : Int → Int) (codec_id : AVCodecID) (buf : Nat → Nat)
    (len n : Nat) (hcodec : codec_id ≠ AVCodecID.OTHER) (hn : 1 ≤ n) (hn255 : n ≤ 255)
    (hmore : ∀ i, i + 1 < n → bitAt buf (8 + 8 * i) = true)
    (hlast : bitAt buf (8 + 8 * (n - 1)) = false)
    (hlen : 8 + 8 * n ≤ 8 * len)
    (halloc : 0 ≤ av_new_packet (allocSize false len 0)) :
    ∃ r, amr_handle_packet_mode false av_new_packet codec_id 1 buf len = some r ∧ r.ret = 0 ∧
      r.pkt_size = some (allocSize false len 0) := by
  obtain ⟨arr, rd, hscan, _⟩ := oa_scan buf len n hn hn255 hmore hlast hlen
  obtain ⟨e1, he1⟩ := toc_index_loop_total false (frameSizes codec_id) (frameAddSizes codec_id)
    buf len arr n 0 ⟨cbit (8 + 8 * n), bidx (8 + 8 * n), 0, 8, [], rd⟩
  have h := handle_packet_of_scan false av_new_packet codec_id buf len _ e1 hcodec hscan rfl
    (by show bidx (8 + 8 * n) ≤ len; unfold bidx; omega) halloc he1
  exact ⟨_, h, rfl, rfl⟩

/-! ## One stored entry at a time -/

theorem writer_eta (w : Writer) : (⟨w.audio_data, w.audio_data_index, w.out⟩ : Writer) = w := rfl

/-- A pass of the loop over the entries for an entry that is stored: its
payload lies inside the buffer and, with the filler, fills whole bytes. -/
theorem toc_index_pass (be : Bool) (frame_sizes frame_add_sizes : List Nat) (buf : Nat → Nat)
    (len : Nat) (arr : Nat → Nat) (n j q : Nat) (out rd : List Nat) (m : Nat)
    (hstore : (!be || tocFt (arr j) != 9) = true) (hq : 1 ≤ q)
    (hin : q + frame_sizes.getD (tocFt (arr j)) 0 ≤ 8 * len)
    (hm : frame_sizes.getD (tocFt (arr j)) 0 + frame_add_sizes.getD (tocFt (arr j)) 0 = 8 * m) :
    toc_index_loop be frame_sizes frame_add_sizes buf len arr (n + 1) j
        ⟨cbit q, bidx q, 0, 8, out, rd⟩ =
      toc_index_loop be frame_sizes frame_add_sizes buf len arr n (j + 1)
        ⟨cbit (q + 8 * m), bidx (q + 8 * m), 0, 8,
          out ++ (arr j &&& 0x7C) ::
            packBits (bitsAt buf q (frame_sizes.getD (tocFt (arr j)) 0) ++
              List.replicate (frame_add_sizes.getD (tocFt (arr j)) 0) false),
          rd ++ (List.range' q (frame_sizes.getD (tocFt (arr j)) 0)).map (· / 8)⟩ := by
  have hns : ¬ (be = true ∧ (arr j &&& 0x7C) >>> 3 = 9) := by
    intro h
    simp [tocFt, h.1, h.2] at hstore
  unfold tocFt at hstore hin hm
  rw [toc_index_loop]
  simp only [hstore, if_true, hns, if_false]
  rw [frame_loop_bits true buf len _ q 0 8 _ rd hq hin]
  simp only []
  rw [zero_loop_bits true _ _ _ _ _ _ (by omega)]
  simp only [writer_eta, ← pushAll_append]
  rw [pushAll_pack m _ _ (by simp only [bitsAt, List.length_append, List.length_map, List.length_range',
      List.length_replicate]; omega)]
  simp only [tocFt, ← hm, Nat.add_assoc, List.append_assoc, List.singleton_append]

theorem tocFt_lt (t : Nat) : tocFt t < 16 := by
  unfold tocFt
  have h : t &&& 0x7C ≤ 0x7C := Nat.and_le_right
  rw [Nat.shiftRight_eq_div_pow]
  omega

/-- In both tables payload and filler together fill whole bytes. -/
theorem tables_whole (codec_id : AVCodecID) (ft : Nat) (hft : ft < 16) :
    payloadBits codec_id ft + padBits codec_id ft =
      8 * ((payloadBits codec_id ft + padBits codec_id ft) / 8) := by
  cases codec_id <;> interval_cases ft <;> rfl

/-- A pass of the bandwidth-efficient loop over the entries for an entry of
type 9: nothing of the entry is stored but the 61-byte block. -/
theorem toc_index_pass_sid (frame_sizes frame_add_sizes : List Nat) (buf : Nat → Nat)
    (len : Nat) (arr : Nat → Nat) (n j : Nat) (e : Emit) (h9 : tocFt (arr j) = 9) :
    ∃ e3 : Emit, e3.out = e.out ∧
      toc_index_loop true frame_sizes frame_add_sizes buf len arr (n + 1) j e =
        toc_index_loop true frame_sizes frame_add_sizes buf len arr n (j + 1)
          { e3 with out := e3.out ++ 0x44 :: List.replicate 60 0x00 } := by
  unfold tocFt at h9
  obtain ⟨e2, h2, ho2⟩ := frame_loop_total false buf len (frame_sizes.getD 9 0) e
  obtain ⟨e3, h3, ho3⟩ := zero_loop_total false (frame_add_sizes.getD 9 0) e2
  refine ⟨e3, by rw [ho3 rfl, ho2 rfl], ?_⟩
  rw [toc_index_loop]
  simp only [h9, Bool.not_true, bne_self_eq_false, Bool.or_self, Bool.false_eq_true, if_false,
    h2, h3, true_and, and_self, if_true]

/-- The bandwidth-efficient handler on a packet whose TOC chain is one entry
of a type other than 9, with the payload inside the buffer. -/
theorem be_single_frame (av_new_packet : Int → Int) (codec_id : AVCodecID) (buf : Nat → Nat)
    (len : Nat) (hcodec : codec_id ≠ AVCodecID.OTHER) (hF : bitAt buf 4 = false)
    (hne : tocFt (tocEntry true buf 4) ≠ 9)
    (hin : 10 + payloadBits codec_id (tocFt (tocEntry true buf 4)) ≤ 8 * len)
    (halloc : 0 ≤ av_new_packet (len : Int)) :
    ∃ r, amr_handle_packet_mode true av_new_packet codec_id 1 buf len = some r ∧ r.ret = 0 ∧
      r.pkt_size = some (len : Int) ∧
      r.out = (tocEntry true buf 4 &&& 0x7C) ::
        packBits (bitsAt buf 10 (payloadBits codec_id (tocFt (tocEntry true buf 4))) ++
          List.replicate (padBits codec_id (tocFt (tocEntry true buf 4))) false) := by
  obtain ⟨arr, rd, hscan, harr⟩ := be_scan buf len 1 (by omega) (by omega)
    (fun i hi => by omega) (by simpa using hF) (by omega)
  have h0 : arr 0 = tocEntry true buf 4 := by simpa using harr 0 (by omega)
  have hsid : sidCount buf 4 1 = 0 := by simp [sidCount, hne]
  have hsize : allocSize true len (sidCount buf 4 1) = (len : Int) := by
    simp [allocSize, hsid]
  have hpass := toc_index_pass true (frameSizes codec_id) (frameAddSizes codec_id) buf len arr 0 0
    10 [] rd ((payloadBits codec_id (tocFt (arr 0)) + padBits codec_id (tocFt (arr 0))) / 8)
    (by rw [h0]; simpa using hne) (by omega) (by rw [h0]; exact hin)
    (tables_whole codec_id _ (tocFt_lt _))
  rw [toc_index_loop] at hpass
  have h := handle_packet_of_scan true av_new_packet codec_id buf len _ _ hcodec hscan rfl
    (by show bidx (4 + 6 * 1) ≤ len; unfold bidx; omega) (by rw [hsize]; exact halloc) hpass
  refine ⟨_, h, rfl, by rw [hsize], ?_⟩
  simp only [h0, List.nil_append, payloadBits, padBits]

/-- The bandwidth-efficient handler on a packet whose TOC chain is one entry
of type 9. -/
theorem be_single_sid (av_new_packet : Int → Int) (codec_id : AVCodecID) (buf : Nat → Nat)
    (len : Nat) (hcodec : codec_id ≠ AVCodecID.OTHER) (hF : bitAt buf 4 = false)
    (h9 : tocFt (tocEntry true buf 4) = 9) (hlen : 2 ≤ len)
    (halloc : 0 ≤ av_new_packet ((len : Int) + 54)) :
    ∃ r, amr_handle_packet_mode true av_new_packet codec_id 1 buf len = some r ∧ r.ret = 0 ∧
      r.pkt_size = some ((len : Int) + 54) ∧ r.out = 0x44 :: List.replicate 60 0x00 := by
  obtain ⟨arr, rd, hscan, harr⟩ := be_scan buf len 1 (by omega) (by omega)
    (fun i hi => by omega) (by simpa using hF) (by omega)
  have h0 : arr 0 = tocEntry true buf 4 := by simpa using harr 0 (by omega)
  have hsid : sidCount buf 4 1 = 1 := by simp [sidCount, h9]
  have hsize : allocSize true len (sidCount buf 4 1) = (len : Int) + 54 := by
    simp [allocSize, hsid]
  obtain ⟨e3, ho, hpass⟩ := toc_index_pass_sid (frameSizes codec_id) (frameAddSizes codec_id) buf
    len arr 0 0 ⟨cbit (4 + 6 * 1), bidx (4 + 6 * 1), 0, 8, [], rd⟩ (by rw [h0]; exact h9)
  rw [toc_index_loop] at hpass
  have h := handle_packet_of_scan true av_new_packet codec_id buf len _ _ hcodec hscan rfl
    (by show bidx (4 + 6 * 1) ≤ len; unfold bidx; omega) (by rw [hsize]; exact halloc) hpass
  refine ⟨_, h, rfl, by rw [hsize], ?_⟩
  simp [ho]

open AVCodecID

/-! ## Packed buffers -/

theorem packBits_length (bs : List Bool) : (packBits bs).length = (bs.length + 7) / 8 := by
  simp [packBits]


theorem byteOfBits_lt (bs : List Bool) : byteOfBits bs < 256 := by
  unfold byteOfBits
  have h : ∀ b : Bool, b.toNat ≤ 1 := fun b => Bool.toNat_le b
  have h0 := h (bs.getD 0 false)
  have h1 := h (bs.getD 1 false)
  have h2 := h (bs.getD 2 false)
  have h3 := h (bs.getD 3 false)
  have h4 := h (bs.getD 4 false)
  have h5 := h (bs.getD 5 false)
  have h6 := h (bs.getD 6 false)
  have h7 := h (bs.getD 7 false)
  omega

theorem bool_eq_of_toNat (b : Bool) (x : Nat) (h : b.toNat = x) : decide (x = 1) = b := by
  cases b <;> subst h <;> rfl

theorem byteOfBits_testBit (bs : List Bool) (j : Nat) (hj : j < 8) :
    (byteOfBits bs).testBit (7 - j) = bs.getD j false := by
  rw [Nat.testBit_to_div_mod]
  apply bool_eq_of_toNat
  unfold byteOfBits
  have h : ∀ b : Bool, b.toNat ≤ 1 := fun b => Bool.toNat_le b
  have h0 := h (bs.getD 0 false)
  have h1 := h (bs.getD 1 false)
  have h2 := h (bs.getD 2 false)
  have h3 := h (bs.getD 3 false)
  have h4 := h (bs.getD 4 false)
  have h5 := h (bs.getD 5 false)
  have h6 := h (bs.getD 6 false)
  have h7 := h (bs.getD 7 false)
  interval_cases j <;> simp only [Nat.sub_zero, Nat.reduceSub, Nat.reducePow, Nat.pow_zero] <;>
    omega

theorem packBits_getD (bs : List Bool) (k : Nat) (hk : k < (bs.length + 7) / 8) (x : Nat) :
    (packBits bs).getD k x = byteOfBits (bs.drop (8 * k)) := by
  simp [packBits, List.getD_eq_getElem?_getD, List.getElem?_map, List.getElem?_range hk]

/-- Bit `p` of a buffer that starts with the packed bit string `bs`. -/
theorem bitAt_packed (buf : Nat → Nat) (bs : List Bool)
    (hbuf : ∀ i < (packBits bs).length, buf i = (packBits bs).getD i 0) (p : Nat)
    (hp : p < bs.length) : bitAt buf p = bs.getD p false := by
  have hk : p / 8 < (bs.length + 7) / 8 := by omega
  unfold bitAt
  rw [hbuf (p / 8) (by rw [packBits_length]; exact hk), packBits_getD bs _ hk,
    Nat.mod_eq_of_lt (byteOfBits_lt _), byteOfBits_testBit _ _ (Nat.mod_lt _ (by norm_num))]
  simp only [List.getD_eq_getElem?_getD, List.getElem?_drop]
  rw [Nat.div_add_mod]

/-- The bits of a buffer that starts with the packed string
`hd ++ mid ++ tl`, read from where `mid` starts. -/
theorem bitsAt_packed (buf : Nat → Nat) (hd mid tl : List Bool)
    (hbuf : ∀ i < (packBits (hd ++ mid ++ tl)).length,
      buf i = (packBits (hd ++ mid ++ tl)).getD i 0) :
    bitsAt buf hd.length mid.length = mid := by
  apply List.ext_getElem
  · simp [bitsAt]
  · intro i h1 h2
    simp only [bitsAt, List.getElem_map, List.getElem_range', Nat.one_mul]
    have h3 : hd.length + i < (hd ++ mid ++ tl).length := by
      simp only [List.length_append]; omega
    rw [bitAt_packed buf (hd ++ mid ++ tl) hbuf _ h3]
    simp only [List.getD_eq_getElem?_getD, List.getElem?_eq_getElem h3, Option.getD_some]
    rw [List.getElem_append_left (by simp only [List.length_append]; omega),
      List.getElem_append_right (by omega)]
    simp

theorem bitsAt_append (buf : Nat → Nat) (q n1 n2 : Nat) :
    bitsAt buf q (n1 + n2) = bitsAt buf q n1 ++ bitsAt buf (q + n1) n2 := by
  simp only [bitsAt, ← List.map_append]
  congr 1
  rw [Nat.add_comm n1 n2]
  exact (List.range'_append_1 q n1 n2).symm

theorem byte_of_bits (x : Nat) (hx : x < 256) :
    128 * (x.testBit 7).toNat + 64 * (x.testBit 6).toNat + 32 * (x.testBit 5).toNat
      + 16 * (x.testBit 4).toNat + 8 * (x.testBit 3).toNat + 4 * (x.testBit 2).toNat
      + 2 * (x.testBit 1).toNat + (x.testBit 0).toNat = x := by
  simp only [Nat.toNat_testBit, Nat.reducePow, Nat.pow_zero, Nat.div_one]
  omega

theorem bitAt_aligned (buf : Nat → Nat) (a j : Nat) (hj : j < 8) :
    bitAt buf (8 * a + j) = (buf a % 256).testBit (7 - j) := by
  unfold bitAt
  have h1 : (8 * a + j) / 8 = a := by omega
  have h2 : (8 * a + j) % 8 = j := by omega
  rw [h1, h2]

/-- The eight bits of a byte put together again. -/
theorem byteOfBits_aligned (buf : Nat → Nat) (a : Nat) :
    byteOfBits (bitsAt buf (8 * a) 8) = buf a % 256 := by
  have h := byte_of_bits (buf a % 256) (Nat.mod_lt _ (by norm_num))
  have e0 := bitAt_aligned buf a 0 (by omega)
  simp only [Nat.add_zero] at e0
  simp only [byteOfBits, bitsAt, List.range', List.map, List.getD_cons_zero, List.getD_cons_succ,
    e0, bitAt_aligned buf a 1 (by omega), bitAt_aligned buf a 2 (by omega),
    bitAt_aligned buf a 3 (by omega), bitAt_aligned buf a 4 (by omega),
    bitAt_aligned buf a 5 (by omega), bitAt_aligned buf a 6 (by omega),
    bitAt_aligned buf a 7 (by omega), Nat.reduceAdd, Nat.sub_zero, Nat.reduceSub]
  omega

/-- Whole bytes of the buffer, taken apart into bits and packed again. -/
theorem packBits_aligned (buf : Nat → Nat) (m : Nat) : ∀ a,
    packBits (bitsAt buf (8 * a) (8 * m)) = (List.range' a m).map (fun i => buf i % 256) := by
  induction m with
  | zero => intro a; simp [bitsAt, packBits_nil]
  | succ m ih =>
    intro a
    have e : 8 * (m + 1) = 8 + 8 * m := by omega
    have e2 : 8 * a + 8 = 8 * (a + 1) := by omega
    rw [e, bitsAt_append, e2]
    have h8 : bitsAt buf (8 * a) 8 = [bitAt buf (8 * a), bitAt buf (8 * a + 1),
        bitAt buf (8 * a + 2), bitAt buf (8 * a + 3), bitAt buf (8 * a + 4),
        bitAt buf (8 * a + 5), bitAt buf (8 * a + 6), bitAt buf (8 * a + 7)] := by
      simp [bitsAt, List.range']
    have hb := byteOfBits_aligned buf a
    rw [h8] at hb ⊢
    simp only [List.cons_append, List.nil_append]
    rw [packBits_cons8, hb, ih (a + 1)]
    simp [List.range']

open AVCodecID

/-! ## Octet-aligned frames -/

theorem padBits_le (codec_id : AVCodecID) (ft : Nat) (hft : ft < 16) :
    padBits codec_id ft ≤ 7 := by
  cases codec_id <;> interval_cases ft <;> decide

theorem testBit_of_mod_two_pow (b p i : Nat) (h : b % 2 ^ p = 0) (hi : i < p) :
    b.testBit i = false := by
  have h1 := Nat.testBit_mod_two_pow b p i
  rw [h] at h1
  simpa [hi] using h1.symm

/-- The payload bits of a frame that lies in whole bytes of the buffer and
ends in zero filler bits, packed with the filler the handler adds, are the
bytes of the frame. -/
theorem frame_bytes (buf : Nat → Nat) (f : List Nat) (a P pad : Nat)
    (hsz : 8 * f.length = P + pad) (hpad : pad ≤ 7)
    (hbuf : ∀ i < f.length, buf (a + i) = f.getD i 0)
    (hbyte : ∀ b ∈ f, b < 256)
    (hzero : f.getD (f.length - 1) 0 % 2 ^ pad = 0) :
    packBits (bitsAt buf (8 * a) P ++ List.replicate pad false) = f := by
  have hz : bitsAt buf (8 * a + P) pad = List.replicate pad false := by
    apply List.ext_getElem
    · simp [bitsAt]
    · intro t h1 h2
      have ht : t < pad := by simpa using h2
      have hm : 1 ≤ f.length := by omega
      simp only [bitsAt, List.getElem_map, List.getElem_range', Nat.one_mul,
        List.getElem_replicate]
      have e : 8 * a + P + t = 8 * (a + (f.length - 1)) + (8 - pad + t) := by omega
      rw [e, bitAt_aligned buf _ _ (by omega), hbuf (f.length - 1) (by omega)]
      have hlt : f.getD (f.length - 1) 0 < 256 := by
        rw [List.getD_eq_getElem _ _ (by omega)]
        exact hbyte _ (List.getElem_mem _)
      rw [Nat.mod_eq_of_lt hlt]
      exact testBit_of_mod_two_pow _ pad _ hzero (by omega)
  rw [← hz, ← bitsAt_append, ← hsz, packBits_aligned]
  apply List.ext_getElem
  · simp
  · intro i h1 h2
    simp only [List.getElem_map, List.getElem_range', Nat.one_mul]
    rw [hbuf i h2, List.getD_eq_getElem _ _ h2]
    exact Nat.mod_eq_of_lt (hbyte _ (List.getElem_mem _))

/-- The loop over the stored entries in octet-aligned mode, when entry by
entry the frames lie in the buffer from byte `a` on. -/
theorem oa_emit (codec_id : AVCodecID) (buf : Nat → Nat) (len : Nat) (arr : Nat → Nat) :
    ∀ (es : List (Nat × List Nat)) (j a : Nat) (out rd : List Nat),
      1 ≤ a →
      (∀ i < es.length, arr (j + i) = (es.map Prod.fst).getD i 0) →
      (∀ i < (es.map Prod.snd).flatten.length,
        buf (a + i) = (es.map Prod.snd).flatten.getD i 0) →
      a + (es.map Prod.snd).flatten.length ≤ len →
      (∀ e ∈ es, 8 * e.2.length = payloadBits codec_id (tocFt e.1) + padBits codec_id (tocFt e.1)) →
      (∀ e ∈ es, ∀ b ∈ e.2, b < 256) →
      (∀ e ∈ es, e.2.getD (e.2.length - 1) 0 % 2 ^ padBits codec_id (tocFt e.1) = 0) →
      ∃ rd', toc_index_loop false (frameSizes codec_id) (frameAddSizes codec_id) buf len arr
          es.length j ⟨cbit (8 * a), bidx (8 * a), 0, 8, out, rd⟩ =
        some ⟨cbit (8 * (a + (es.map Prod.snd).flatten.length)),
          bidx (8 * (a + (es.map Prod.snd).flatten.length)), 0, 8,
          out ++ (es.map (fun e => (e.1 &&& 0x7C) :: e.2)).flatten, rd'⟩ := by
  intro es
  induction es with
  | nil =>
    intro j a out rd _ _ _ _ _ _ _
    exact ⟨rd, by simp [toc_index_loop]⟩
  | cons e es ih =>
    intro j a out rd ha harr hbuf hlen hsz hbyte hzero
    obtain ⟨t, f⟩ := e
    have hj : arr j = t := by simpa using harr 0 (by simp)
    have hsz0 := hsz (t, f) (List.mem_cons_self _ _)
    simp only at hsz0
    simp only [List.map_cons, List.flatten_cons, List.length_append, List.length_cons] at hbuf hlen ⊢
    have hpass := toc_index_pass false (frameSizes codec_id) (frameAddSizes codec_id) buf len arr
      es.length j (8 * a) out rd f.length (by simp) (by omega)
      (by rw [hj]; show 8 * a + payloadBits codec_id (tocFt t) ≤ 8 * len; omega)
      (by rw [hj]; exact hsz0.symm)
    rw [hpass, hj]
    have hfb := frame_bytes buf f a (payloadBits codec_id (tocFt t)) (padBits codec_id (tocFt t))
      hsz0 (padBits_le _ _ (tocFt_lt _))
      (fun i hi => by
        rw [hbuf i (by omega), List.getD_append _ _ _ _ hi])
      (hbyte (t, f) (List.mem_cons_self _ _)) (hzero (t, f) (List.mem_cons_self _ _))
    simp only [payloadBits, padBits] at hfb
    rw [hfb]
    have e1 : 8 * a + 8 * f.length = 8 * (a + f.length) := by omega
    rw [e1]
    obtain ⟨rd', h⟩ := ih (j + 1) (a + f.length) (out ++ (t &&& 0x7C) :: f) _ (by omega)
      (fun i hi => by
        have := harr (i + 1) (by simp; omega)
        simpa [Nat.add_assoc, Nat.add_comm 1 i] using this)
      (fun i hi => by
        have := hbuf (f.length + i) (by omega)
        rw [List.getD_append_right _ _ _ _ (by omega)] at this
        simpa [Nat.add_assoc] using this)
      (by omega)
      (fun e he => hsz e (List.mem_cons_of_mem _ he))
      (fun e he => hbyte e (List.mem_cons_of_mem _ he))
      (fun e he => hzero e (List.mem_cons_of_mem _ he))
    refine ⟨rd', ?_⟩
    rw [h]
    simp [Nat.add_assoc]

theorem toc_of_nibble (ft : Nat) (q : Bool) (hft : ft < 16) :
    byteOfBits (false :: nibble ft ++ [q]) = 8 * ft + 4 * q.toNat ∧
      tocFt (8 * ft + 4 * q.toNat) = ft ∧ (8 * ft + 4 * q.toNat) &&& 0x7C = 8 * ft + 4 * q.toNat := by
  interval_cases ft <;> cases q <;> decide

theorem mem_eq (bytes : List Nat) (pad i : Nat) (hi : i < bytes.length) :
    mem bytes pad i = bytes.getD i 0 := by
  simp [mem, List.getD_eq_getElem?_getD, List.getElem?_eq_getElem hi]

theorem testBit7_of_ge (t : Nat) (h : t < 256) : t.testBit 7 = decide (128 ≤ t) := by
  rw [Nat.testBit_to_div_mod]
  congr 1
  simp only [Nat.reducePow, eq_iff_iff]
  omega

/-! ## The scan on every buffer -/

/-- One pass of the TOC loop, stated on the byte index the loop tests. -/
theorem toc_loop_step_gen (be : Bool) (buf : Nat → Nat) (len fuel : Nat) (arr : Nat → Nat)
    (cnt thr item et cb sid bi : Nat) (rd : List Nat) (q : Nat)
    (hcb : (if cb = 0 then 128 else cb) = 2 ^ (7 - q % 8))
    (hbi : (if cb = 0 then bi + 1 else bi) = q / 8)
    (hlen : bi < len) (hcap : bi < 1024)
    (hgo : thr ≠ (if be then 6 else 8) ∨ et ≠ 0)
    (hthr : 1 ≤ thr ∧ thr ≤ (if be then 6 else 8)) :
    toc_loop be buf len (fuel + 1) ⟨arr, cnt, thr, item, et, cb, sid, bi, rd⟩ =
      toc_loop be buf len fuel (toc_entry_end be
        ⟨arr, cnt, thr, ((item <<< 1) % 256 + (bitAt buf q).toNat) % 256,
          if thr = (if be then 6 else 8) then (bitAt buf q).toNat else et,
          2 ^ (7 - q % 8), sid, q / 8, rd ++ [q / 8]⟩) := by
  rw [toc_loop]
  simp only [hlen, hcap, hgo, and_self, if_true, hcb, hbi, removeLowZeros_read]
  by_cases h : thr = (if be then 6 else 8)
  · simp [h]
  · have h2 : thr ≤ (if be then 6 else 8) - 1 := by omega
    simp [h, h2, hthr.1]

theorem toc_loop_exit (be : Bool) (buf : Nat → Nat) (len fuel : Nat) (s : TocScan)
    (h : ¬ (s.buf_index < len ∧ s.buf_index < 1024 ∧
      (s.toc_item_threshold ≠ (if be then 6 else 8) ∨ s.end_tag ≠ 0))) :
    toc_loop be buf len (fuel + 1) s = Flow.fallthrough s := by
  rw [toc_loop]
  simp only [h, if_false]

theorem tocStart_succ (be : Bool) (i : Nat) :
    tocStart be (i + 1) = tocStart be i + (if be then 6 else 8) := by
  unfold tocStart
  split <;> omega

theorem tocStart_pos (be : Bool) (i : Nat) : 4 ≤ tocStart be i := by
  unfold tocStart
  split <;> omega

theorem cbit_wrap_idx (q : Nat) :
    (if cbit (q + 1) = 0 then q / 8 + 1 else q / 8) = (q + 1) / 8 := by
  have h := bidx_wrap (q + 1) (by omega)
  rwa [bidx_succ] at h

/-- A pass of the TOC loop keeps `ScanInv` and moves on by one bit. -/
theorem scan_step (be : Bool) (buf : Nat → Nat) (len : Nat) (s : TocScan) (i j : Nat)
    (hinv : ScanInv be buf len s i j)
    (hcond : s.buf_index < len ∧ s.buf_index < 1024 ∧
      (s.toc_item_threshold ≠ (if be then 6 else 8) ∨ s.end_tag ≠ 0)) :
    ∃ s' i' j', (∀ fuel, toc_loop be buf len (fuel + 1) s = toc_loop be buf len fuel s') ∧
      ScanInv be buf len s' i' j' ∧ tocStart be i' + j' = tocStart be i + j + 1 ∧
      tocStart be i + j ≤ 8 * len := by
  obtain ⟨arr, cnt, thr, item, et, cb, sid, bi, rd⟩ := s
  obtain ⟨hj, hthr, hcb, hbi, het, _⟩ := hinv
  simp only at hj hthr hcb hbi het hcond
  have hw : (if be then 6 else 8) ≤ 8 ∧ 6 ≤ (if be then 6 else 8) := by split <;> omega
  have hpos := tocStart_pos be i
  have hq8 : (tocStart be i + j) % 8 < 8 := Nat.mod_lt _ (by norm_num)
  -- the position is inside the reach of the loop
  have hreach : tocStart be i + j ≤ 8 * len := by
    by_cases h0 : cb = 0
    · simp only [h0, if_true] at hcb hbi
      have : (tocStart be i + j) % 8 = 0 := by
        by_contra hne
        have hlt : 2 ^ (7 - (tocStart be i + j) % 8) < 2 ^ 7 :=
          Nat.pow_lt_pow_right (by norm_num) (by omega)
        omega
      omega
    · simp only [h0, if_false] at hbi
      omega
  have hstep := fun fuel => toc_loop_step_gen be buf len fuel arr cnt thr item et cb sid bi rd
    (tocStart be i + j) hcb hbi hcond.1 hcond.2.1 hcond.2.2 ⟨by omega, by omega⟩
  have hble : tocStart be i + j + 1 - 1 = tocStart be i + j := by omega
  have hbi' : (tocStart be i + j) / 8 ≤ len := by
    have := cursor_le cb bi _ hbi
    split at hbi <;> omega
  by_cases hlast : thr = 1
  · -- the entry is complete
    subst hlast
    refine ⟨_, i + 1, 0, fun fuel => by rw [hstep fuel, toc_entry_end_last], ?_, ?_, hreach⟩
    · refine ⟨by omega, by simp, ?_, ?_, ?_, Or.inr ?_⟩
      · simp only [Nat.add_zero, tocStart_succ]
        have e : tocStart be i + (if be then 6 else 8) = tocStart be i + j + 1 := by omega
        rw [e]; exact cbit_wrap _
      · simp only [Nat.add_zero, tocStart_succ]
        have e : tocStart be i + (if be then 6 else 8) = tocStart be i + j + 1 := by omega
        rw [e]; exact cbit_wrap_idx _
      · have hj0 : 0 < j := by omega
        have hne : (1 : Nat) ≠ (if be then 6 else 8) := by omega
        simp only [hne, if_false, het, lastF, hj0, if_true, Nat.lt_irrefl, Nat.succ_pos,
          Nat.add_sub_cancel]
      · exact hbi'
    · rw [tocStart_succ]; omega
  · -- inside the entry
    refine ⟨_, i, j + 1, fun fuel => by
      rw [hstep fuel, toc_entry_end_mid be arr cnt thr _ _ sid _ _ _ ⟨by omega, by omega⟩], ?_,
      by omega, hreach⟩
    refine ⟨by omega, by simp only; omega, ?_, ?_, ?_, Or.inr hbi'⟩
    · rw [← Nat.add_assoc]; exact cbit_wrap _
    · rw [← Nat.add_assoc]; exact cbit_wrap_idx _
    · by_cases hj0 : j = 0
      · subst hj0
        have : thr = (if be then 6 else 8) := by omega
        simp [this, lastF]
      · have hne : thr ≠ (if be then 6 else 8) := by omega
        have hjp : 0 < j := by omega
        simp only [hne, if_false, het, lastF, hjp, if_true, Nat.succ_pos]

/-- From a state that satisfies `ScanInv`, with fuel for the bits up to
`8 * len`, the scan leaves the loop through its condition. -/
theorem toc_loop_total (be : Bool) (buf : Nat → Nat) (len : Nat) :
    ∀ (fuel : Nat) (s : TocScan) (i j : Nat), ScanInv be buf len s i j → 1 ≤ fuel →
      8 * len + 2 ≤ fuel + (tocStart be i + j) →
      ∃ s' i' j', toc_loop be buf len fuel s = Flow.fallthrough s' ∧
        ScanInv be buf len s' i' j' ∧
        ¬ (s'.buf_index < len ∧ s'.buf_index < 1024 ∧
          (s'.toc_item_threshold ≠ (if be then 6 else 8) ∨ s'.end_tag ≠ 0)) := by
  intro fuel
  induction fuel with
  | zero => intro s i j _ h; omega
  | succ f ih =>
    intro s i j hinv _ hfuel
    by_cases hcond : s.buf_index < len ∧ s.buf_index < 1024 ∧
        (s.toc_item_threshold ≠ (if be then 6 else 8) ∨ s.end_tag ≠ 0)
    · obtain ⟨s1, i1, j1, hstep, hinv1, hpos, hreach⟩ := scan_step be buf len s i j hinv hcond
      rw [hstep f]
      exact ih s1 i1 j1 hinv1 (by omega) (by omega)
    · exact ⟨s, i, j, toc_loop_exit be buf len f s hcond, hinv, hcond⟩

/-- From a state that satisfies `ScanInv` the scan never leaves the loop
through the `return` of the 'invalid toc_item_threshold' branch. -/
theorem toc_loop_never_returns (be : Bool) (buf : Nat → Nat) (len : Nat) :
    ∀ (fuel : Nat) (s : TocScan) (i j : Nat), ScanInv be buf len s i j →
      ∀ code s', toc_loop be buf len fuel s ≠ Flow.returned code s' := by
  intro fuel
  induction fuel with
  | zero =>
    intro s i j _ code s' h
    simp [toc_loop] at h
  | succ f ih =>
    intro s i j hinv code s'
    by_cases hcond : s.buf_index < len ∧ s.buf_index < 1024 ∧
        (s.toc_item_threshold ≠ (if be then 6 else 8) ∨ s.end_tag ≠ 0)
    · obtain ⟨s1, i1, j1, hstep, hinv1, _, _⟩ := scan_step be buf len s i j hinv hcond
      rw [hstep f]
      exact ih s1 i1 j1 hinv1 code s'
    · rw [toc_loop_exit be buf len f s hcond]
      simp

theorem scanInv_init (be : Bool) (buf : Nat → Nat) (len : Nat) :
    ScanInv be buf len (tocInit be) 0 0 := by
  cases be <;> simp [ScanInv, tocInit, tocStart, lastF]

theorem lastF_le (be : Bool) (buf : Nat → Nat) (i j : Nat) : lastF be buf i j ≤ 1 := by
  unfold lastF
  split
  · exact Bool.toNat_le _
  · split
    · exact Bool.toNat_le _
    · exact le_refl 1

/-- The scan of a handler call on any buffer: it leaves the loop through
its condition, in a state that satisfies `ScanInv`. -/
theorem scan_total (be : Bool) (buf : Nat → Nat) (len : Nat) :
    ∃ s i j, toc_loop be buf len (8 * len + 8) (tocInit be) = Flow.fallthrough s ∧
      ScanInv be buf len s i j ∧
      ¬ (s.buf_index < len ∧ s.buf_index < 1024 ∧
        (s.toc_item_threshold ≠ (if be then 6 else 8) ∨ s.end_tag ≠ 0)) :=
  toc_loop_total be buf len (8 * len + 8) (tocInit be) 0 0 (scanInv_init be buf len) (by omega)
    (by omega)

/-- Every handler call returns: with an error code and nothing allocated or
stored, or with 0 after the allocation. -/
theorem handle_packet_total (be : Bool) (av_new_packet : Int → Int) (codec_id : AVCodecID)
    (nb_channels : Int) (buf : Nat → Nat) (len : Nat) :
    ∃ r, amr_handle_packet_mode be av_new_packet codec_id nb_channels buf len = some r ∧
      ((r.ret < 0 ∧ r.pkt_size = none ∧ r.out = []) ∨ (r.ret = 0 ∧ r.pkt_size ≠ none)) := by
  have hinv : AVERROR_INVALIDDATA < 0 := by decide
  obtain ⟨s, i, j, hscan, _, _⟩ := scan_total be buf len
  unfold tocInit at hscan
  by_cases hcodec : codec_id = AVCodecID.OTHER
  · subst hcodec
    exact ⟨⟨AVERROR_INVALIDDATA, none, [], []⟩, by simp only [amr_handle_packet_mode],
      Or.inl ⟨hinv, rfl, rfl⟩⟩
  by_cases hch : nb_channels = 1
  swap
  · refine ⟨⟨AVERROR_INVALIDDATA, none, [], []⟩, ?_, Or.inl ⟨hinv, rfl, rfl⟩⟩
    cases codec_id <;>
      first
      | exact absurd rfl hcodec
      | simp only [amr_handle_packet_mode, ne_eq, hch, not_false_eq_true, if_true]
  subst hch
  by_cases het : s.end_tag ≠ 0 ∨ s.buf_index > len
  · refine ⟨⟨AVERROR_INVALIDDATA, none, [], s.reads⟩, ?_, Or.inl ⟨hinv, rfl, rfl⟩⟩
    cases codec_id <;>
      first
      | exact absurd rfl hcodec
      | simp only [amr_handle_packet_mode, ne_eq, not_true_eq_false, if_false, hscan, het,
          if_true]
  have hal' : av_new_packet (allocSize be len s.sid_count) =
      av_new_packet (if be = true then (len : Int) +
        (if 55 * (s.sid_count : Int) - 1 > 0 then 55 * (s.sid_count : Int) - 1 else 0)
        else (len : Int) - 1) := rfl
  by_cases hal : av_new_packet (allocSize be len s.sid_count) < 0
  · refine ⟨⟨av_new_packet (allocSize be len s.sid_count), none, [], s.reads⟩, ?_,
      Or.inl ⟨hal, rfl, rfl⟩⟩
    rw [hal'] at hal ⊢
    cases codec_id <;>
      first
      | exact absurd rfl hcodec
      | simp only [amr_handle_packet_mode, ne_eq, not_true_eq_false, if_false, hscan, het, hal,
          if_true]
  · obtain ⟨e1, he1⟩ := toc_index_loop_total be (frameSizes codec_id) (frameAddSizes codec_id)
      buf len s.toc_item_array s.toc_item_count 0 ⟨s.cur_bit, s.buf_index, 0, 8, [], s.reads⟩
    refine ⟨⟨0, some (allocSize be len s.sid_count), e1.out, e1.reads⟩, ?_,
      Or.inr ⟨rfl, by simp⟩⟩
    rw [hal'] at hal
    cases codec_id <;>
      first
      | exact absurd rfl hcodec
      | (simp only [frameSizes, frameAddSizes] at he1
         simp only [amr_handle_packet_mode, ne_eq, not_true_eq_false, if_false, hscan, het, hal,
          he1, allocSize])

/-- What a handler call on a supported mono stream returns, given the
state in which its scan left the loop. -/
theorem handle_packet_cases (be : Bool) (av_new_packet : Int → Int) (codec_id : AVCodecID)
    (buf : Nat → Nat) (len : Nat) (s : TocScan) (hcodec : codec_id ≠ AVCodecID.OTHER)
    (hscan : toc_loop be buf len (8 * len + 8) (tocInit be) = Flow.fallthrough s) :
    ∃ r, amr_handle_packet_mode be av_new_packet codec_id 1 buf len = some r ∧
      ((s.end_tag ≠ 0 ∨ s.buf_index > len) → r.ret = AVERROR_INVALIDDATA) ∧
      (¬ (s.end_tag ≠ 0 ∨ s.buf_index > len) →
        (av_new_packet (allocSize be len s.sid_count) < 0 →
          r.ret = av_new_packet (allocSize be len s.sid_count)) ∧
        (¬ av_new_packet (allocSize be len s.sid_count) < 0 → r.ret = 0)) := by
  unfold tocInit at hscan
  have hal' : av_new_packet (allocSize be len s.sid_count) =
      av_new_packet (if be = true then (len : Int) +
        (if 55 * (s.sid_count : Int) - 1 > 0 then 55 * (s.sid_count : Int) - 1 else 0)
        else (len : Int) - 1) := rfl
  by_cases het : s.end_tag ≠ 0 ∨ s.buf_index > len
  · refine ⟨⟨AVERROR_INVALIDDATA, none, [], s.reads⟩, ?_, fun _ => rfl, fun h => absurd het h⟩
    cases codec_id <;>
      first
      | exact absurd rfl hcodec
      | simp only [amr_handle_packet_mode, ne_eq, not_true_eq_false, if_false, hscan, het,
          if_true]
  by_cases hal : av_new_packet (allocSize be len s.sid_count) < 0
  · refine ⟨⟨av_new_packet (allocSize be len s.sid_count), none, [], s.reads⟩, ?_,
      fun h => absurd h het, fun _ => ⟨fun _ => rfl, fun h => absurd hal h⟩⟩
    rw [hal'] at hal ⊢
    cases codec_id <;>
      first
      | exact absurd rfl hcodec
      | simp only [amr_handle_packet_mode, ne_eq, not_true_eq_false, if_false, hscan, het, hal,
          if_true]
  · obtain ⟨e1, he1⟩ := toc_index_loop_total be (frameSizes codec_id) (frameAddSizes codec_id)
      buf len s.toc_item_array s.toc_item_count 0 ⟨s.cur_bit, s.buf_index, 0, 8, [], s.reads⟩
    refine ⟨⟨0, some (allocSize be len s.sid_count), e1.out, e1.reads⟩, ?_,
      fun h => absurd h het, fun _ => ⟨fun h => absurd h hal, fun _ => rfl⟩⟩
    rw [hal'] at hal
    cases codec_id <;>
      first
      | exact absurd rfl hcodec
      | (simp only [frameSizes, frameAddSizes] at he1
         simp only [amr_handle_packet_mode, ne_eq, not_true_eq_false, if_false, hscan, het, hal,
          he1, allocSize])

/-! ## More than 255 entries -/

/-- The octet-aligned scan over `k + 1` entries that all have F = 1. -/
theorem toc_loop_run_oa (buf : Nat → Nat) (len : Nat) (k : Nat) :
    ∀ (arr : Nat → Nat) (cnt sid fuel et cb bi : Nat) (rd : List Nat) (q : Nat),
      (if cb = 0 then 128 else cb) = 2 ^ (7 - q % 8) →
      (if cb = 0 then bi + 1 else bi) = q / 8 →
      et ≠ 0 →
      (q + 8 * (k + 1) - 1) / 8 < len → (q + 8 * (k + 1) - 1) / 8 < 1024 →
      (∀ i ≤ k, bitAt buf (q + 8 * i) = true) →
      ∃ arr' rd', toc_loop false buf len (fuel + 8 * (k + 1)) ⟨arr, cnt, 8, 0, et, cb, sid, bi, rd⟩ =
        toc_loop false buf len fuel ⟨arr', (cnt + (k + 1)) % 256, 8, 0, 1,
          cbit (q + 8 * (k + 1)), sid, bidx (q + 8 * (k + 1)), rd'⟩ := by
  induction k with
  | zero =>
    intro arr cnt sid fuel et cb bi rd q hcb hbi het hlen hcap hmore
    have h := toc_loop_entry false buf len arr cnt sid fuel et cb bi rd q hcb hbi
      (by simpa using hlen) (by simpa using hcap) het
    simp only [Bool.false_eq_true, if_false, false_and] at h
    have hF : bitAt buf q = true := by simpa using hmore 0 (le_refl 0)
    exact ⟨_, _, by rw [Nat.mul_one, h, hF]; rfl⟩
  | succ k ih =>
    intro arr cnt sid fuel et cb bi rd q hcb hbi het hlen hcap hmore
    have e0 : fuel + 8 * (k + 1 + 1) = (fuel + 8 * (k + 1)) + 8 := by omega
    have h := toc_loop_entry false buf len arr cnt sid (fuel + 8 * (k + 1)) et cb bi rd q hcb hbi
      (by simp only [Bool.false_eq_true, if_false]; omega)
      (by simp only [Bool.false_eq_true, if_false]; omega) het
    simp only [Bool.false_eq_true, if_false, false_and] at h
    have hF : bitAt buf q = true := by simpa using hmore 0 (by omega)
    rw [e0, h, hF]
    obtain ⟨arr', rd', h1⟩ := ih (Function.update arr cnt (tocEntry false buf q))
      ((cnt + 1) % 256) sid fuel (true : Bool).toNat (cbit (q + 8)) (bidx (q + 8))
      (rd ++ (List.range' q 8).map (· / 8)) (q + 8) (cbit_wrap _) (bidx_wrap _ (by omega))
      (by simp) (by rw [show q + 8 + 8 * (k + 1) - 1 = q + 8 * (k + 1 + 1) - 1 by omega]; exact hlen)
      (by rw [show q + 8 + 8 * (k + 1) - 1 = q + 8 * (k + 1 + 1) - 1 by omega]; exact hcap)
      (fun i hi => by
        have := hmore (i + 1) (by omega)
        rwa [show q + 8 * (i + 1) = q + 8 + 8 * i by omega] at this)
    refine ⟨arr', rd', ?_⟩
    rw [h1]
    have e1 : q + 8 + 8 * (k + 1) = q + 8 * (k + 1 + 1) := by omega
    have e2 : ((cnt + 1) % 256 + (k + 1)) % 256 = (cnt + (k + 1 + 1)) % 256 := by omega
    rw [e1, e2]

/-- An octet-aligned packet whose TOC chain has 256 entries: the entry
counter is back at 0 when the scan ends and nothing is stored. -/
theorem oa_256_entries (av_new_packet : Int → Int) (codec_id : AVCodecID) (buf : Nat → Nat)
    (len : Nat) (hcodec : codec_id ≠ AVCodecID.OTHER)
    (hmore : ∀ i < 255, bitAt buf (8 + 8 * i) = true)
    (hlast : bitAt buf (8 + 8 * 255) = false) (hlen : 257 ≤ len)
    (halloc : 0 ≤ av_new_packet (allocSize false len 0)) :
    ∃ r, amr_handle_packet_mode false av_new_packet codec_id 1 buf len = some r ∧ r.ret = 0 ∧
      r.pkt_size = some (allocSize false len 0) ∧ r.out = [] := by
  obtain ⟨f, hf⟩ : ∃ f, 8 * len + 8 = ((f + 1) + 8) + 8 * (254 + 1) := ⟨8 * len - 2041, by omega⟩
  obtain ⟨arr, rd, h1⟩ := toc_loop_run_oa buf len 254 (fun _ => 0) 0 0 ((f + 1) + 8) 1 128 1 [] 8
    (by decide) (by decide) (by decide) (by omega) (by omega) (fun i hi => hmore i (by omega))
  have h2 := toc_loop_entry false buf len arr ((0 + (254 + 1)) % 256) 0 (f + 1) 1
    (cbit (8 + 8 * (254 + 1))) (bidx (8 + 8 * (254 + 1))) rd (8 + 8 * (254 + 1)) (cbit_wrap _)
    (bidx_wrap _ (by omega)) (by simp only [Bool.false_eq_true, if_false]; omega)
    (by simp only [Bool.false_eq_true, if_false]; omega) (by decide)
  simp only [Bool.false_eq_true, if_false, false_and] at h2
  have hF : bitAt buf (8 + 8 * (254 + 1)) = false := hlast
  rw [hF] at h2
  have h3 := toc_loop_stop false buf len f
    (Function.update arr ((0 + (254 + 1)) % 256) (tocEntry false buf (8 + 8 * (254 + 1))))
    (((0 + (254 + 1)) % 256 + 1) % 256) (cbit (8 + 8 * (254 + 1) + 8)) 0
    (bidx (8 + 8 * (254 + 1) + 8)) (rd ++ (List.range' (8 + 8 * (254 + 1)) 8).map (· / 8))
  simp only [Bool.false_eq_true, if_false] at h3
  have hscan : toc_loop false buf len (8 * len + 8) (tocInit false) = Flow.fallthrough
      ⟨Function.update arr ((0 + (254 + 1)) % 256) (tocEntry false buf (8 + 8 * (254 + 1))),
        ((0 + (254 + 1)) % 256 + 1) % 256, 8, 0, 0, cbit (8 + 8 * (254 + 1) + 8), 0,
        bidx (8 + 8 * (254 + 1) + 8), rd ++ (List.range' (8 + 8 * (254 + 1)) 8).map (· / 8)⟩ := by
    rw [hf]
    have hi : tocInit false = ⟨fun _ => 0, 0, 8, 0, 1, 128, 0, 1, []⟩ := rfl
    rw [hi, h1, h2]
    exact h3
  have hemit : toc_index_loop false (frameSizes codec_id) (frameAddSizes codec_id) buf len
      (Function.update arr ((0 + (254 + 1)) % 256) (tocEntry false buf (8 + 8 * (254 + 1))))
      (((0 + (254 + 1)) % 256 + 1) % 256) 0
      ⟨cbit (8 + 8 * (254 + 1) + 8), bidx (8 + 8 * (254 + 1) + 8), 0, 8, [],
        rd ++ (List.range' (8 + 8 * (254 + 1)) 8).map (· / 8)⟩ =
      some ⟨cbit (8 + 8 * (254 + 1) + 8), bidx (8 + 8 * (254 + 1) + 8), 0, 8, [],
        rd ++ (List.range' (8 + 8 * (254 + 1)) 8).map (· / 8)⟩ := rfl
  have h := handle_packet_of_scan false av_new_packet codec_id buf len _ _ hcodec hscan rfl
    (by show bidx (8 + 8 * (254 + 1) + 8) ≤ len; unfold bidx; omega) halloc hemit
  exact ⟨_, h, rfl, rfl, rfl⟩

/-! ## The bytes stored grow at the end -/

theorem push_bit_out_grows (store : Bool) (bit : Nat) (e : Emit) :
    ∃ rest, (push_bit store bit e).out = e.out ++ rest := by
  unfold push_bit
  dsimp only
  split
  · cases store
    · exact ⟨[], by simp⟩
    · exact ⟨_, by simp only [if_true]; rfl⟩
  · exact ⟨[], by simp⟩

theorem frame_loop_out_grows (store : Bool) (buf : Nat → Nat) (len : Nat) (n : Nat) :
    ∀ e : Emit, ∃ e' rest, frame_loop store buf len n e = some e' ∧ e'.out = e.out ++ rest := by
  induction n with
  | zero => intro e; exact ⟨e, [], rfl, by simp⟩
  | succ n ih =>
    intro e
    rw [frame_loop]
    split
    · obtain ⟨v, hv, hlt⟩ := removeLowZeros_total _
        (and_byte_lt (if e.cur_bit = 0 then 128 else e.cur_bit)
          (buf (if e.cur_bit = 0 then e.buf_index + 1 else e.buf_index)))
      obtain ⟨v2, hv2, _⟩ := removeLowZeros_total v hlt
      simp only [hv, hv2]
      obtain ⟨e', rest, he', ho⟩ := ih _
      obtain ⟨r1, h1⟩ := push_bit_out_grows store v2
        { e with cur_bit := if e.cur_bit = 0 then 128 else e.cur_bit
                 buf_index := if e.cur_bit = 0 then e.buf_index + 1 else e.buf_index
                 reads := e.reads ++ [if e.cur_bit = 0 then e.buf_index + 1 else e.buf_index] }
      refine ⟨e', r1 ++ rest, he', ?_⟩
      rw [ho]
      simp only [h1, List.append_assoc]
    · exact ⟨e, [], rfl, by simp⟩

theorem zero_loop_out_grows (store : Bool) (n : Nat) :
    ∀ e : Emit, ∃ e' rest, zero_loop store n e = some e' ∧ e'.out = e.out ++ rest := by
  induction n with
  | zero => intro e; exact ⟨e, [], rfl, by simp⟩
  | succ n ih =>
    intro e
    rw [zero_loop]
    have h0 : removeLowZeros 0 = some 0 := rfl
    simp only [h0]
    obtain ⟨e', rest, he', ho⟩ := ih _
    obtain ⟨r1, h1⟩ := push_bit_out_grows store 0
      { e with cur_bit := if e.cur_bit = 0 then 128 else e.cur_bit
               buf_index := if e.cur_bit = 0 then e.buf_index + 1 else e.buf_index }
    refine ⟨e', r1 ++ rest, he', ?_⟩
    rw [ho]
    simp only [h1, List.append_assoc]

theorem toc_index_loop_out_grows (be : Bool) (frame_sizes frame_add_sizes : List Nat)
    (buf : Nat → Nat) (len : Nat) (arr : Nat → Nat) (n : Nat) :
    ∀ (j : Nat) (e : Emit), ∃ e' rest,
      toc_index_loop be frame_sizes frame_add_sizes buf len arr n j e = some e' ∧
        e'.out = e.out ++ rest := by
  induction n with
  | zero => intro j e; exact ⟨e, [], rfl, by simp⟩
  | succ n ih =>
    intro j e
    rw [toc_index_loop]
    dsimp only
    obtain ⟨e2, r2, h2, o2⟩ := frame_loop_out_grows (!be || (arr j &&& 124) >>> 3 != 9) buf len
      (frame_sizes.getD ((arr j &&& 124) >>> 3) 0)
      (if (!be || (arr j &&& 124) >>> 3 != 9) = true then
        { e with out := e.out ++ [arr j &&& 124] } else e)
    obtain ⟨e3, r3, h3, o3⟩ := zero_loop_out_grows (!be || (arr j &&& 124) >>> 3 != 9)
      (frame_add_sizes.getD ((arr j &&& 124) >>> 3) 0) e2
    simp only [h2, h3]
    obtain ⟨e', r4, h4, o4⟩ := ih (j + 1)
      (if be = true ∧ (arr j &&& 124) >>> 3 = 9 then
        { e3 with out := e3.out ++ 68 :: List.replicate 60 0 } else e3)
    have o2' : ∃ r, e2.out = e.out ++ r := by
      split at o2
      · exact ⟨[arr j &&& 124] ++ r2, by rw [o2]; simp only [List.append_assoc]⟩
      · exact ⟨r2, o2⟩
    have o4' : ∃ r, e'.out = e3.out ++ r := by
      split at o4
      · exact ⟨(68 :: List.replicate 60 0) ++ r4, by rw [o4]; simp only [List.append_assoc]⟩
      · exact ⟨r4, o4⟩
    obtain ⟨ra, ha⟩ := o2'
    obtain ⟨rb, hb⟩ := o4'
    exact ⟨e', ra ++ (r3 ++ rb), h4, by rw [hb, o3, ha]; simp only [List.append_assoc]⟩

/-! ## Stored entries -/

theorem and_7C_mod (t : Nat) : t &&& 0x7C = (t % 128) &&& 0x7C := by
  apply Nat.eq_of_testBit_eq
  intro i
  rw [Nat.testBit_and, Nat.testBit_and, show (128 : Nat) = 2 ^ 7 by rfl, Nat.testBit_mod_two_pow]
  by_cases hi : i < 7
  · simp [hi]
  · have h : (0x7C : Nat).testBit i = false :=
      Nat.testBit_lt_two_pow (Nat.lt_of_lt_of_le (by norm_num : (0x7C : Nat) < 2 ^ 7)
        (Nat.pow_le_pow_right (by norm_num) (by omega)))
    simp [h]

theorem and_7C_small : ∀ x < 128,
    x &&& 0x7C = 8 * ((x &&& 0x7C) >>> 3) + 4 * (x.testBit 2).toNat := by
  decide

/-- The TOC byte stored for an entry: frame type and quality bit. -/
theorem toc_byte_eq (t : Nat) : t &&& 0x7C = 8 * tocFt t + 4 * (t.testBit 2).toNat := by
  have h1 := and_7C_mod t
  have h2 := and_7C_small (t % 128) (Nat.mod_lt _ (by norm_num))
  have h3 : (t % 128).testBit 2 = t.testBit 2 := by
    rw [show (128 : Nat) = 2 ^ 7 by rfl, Nat.testBit_mod_two_pow]
    simp
  unfold tocFt
  rw [h1, ← h3]
  exact h2

theorem itemAcc_snoc (buf : Nat → Nat) (q j : Nat) :
    itemAcc 0 (bitsAt buf q (j + 1)) =
      ((itemAcc 0 (bitsAt buf q j) <<< 1) % 256 + (bitAt buf (q + j)).toNat) % 256 := by
  rw [bitsAt_append]
  simp [itemAcc, bitsAt, List.foldl_append]

theorem tocEntry_of_item (be : Bool) (buf : Nat → Nat) (q j : Nat)
    (hj : j + 1 = (if be then 6 else 8)) :
    (if be then
        ((((itemAcc 0 (bitsAt buf q j) <<< 1) % 256 + (bitAt buf (q + j)).toNat) % 256) <<< 2)
          % 256
      else ((itemAcc 0 (bitsAt buf q j) <<< 1) % 256 + (bitAt buf (q + j)).toNat) % 256) =
      tocEntry be buf q := by
  cases be
  · have h7 : j = 7 := by simpa using hj
    subst h7
    simp only [Bool.false_eq_true, if_false, tocEntry, bitsAt, List.range', List.map,
      Nat.reduceAdd, Nat.add_assoc]
    exact itemAcc_octet _ _ _ _ _ _ _ _
  · have h5 : j = 5 := by simpa using hj
    subst h5
    simp only [if_true, tocEntry, bitsAt, List.range', List.map, Nat.reduceAdd, Nat.add_assoc]
    exact itemAcc_six _ _ _ _ _ _

/-- A pass of the TOC loop keeps `ScanInv` and `ScanStored` and moves on by
one bit. -/
theorem scan_step_stored (be : Bool) (buf : Nat → Nat) (len : Nat) (s : TocScan) (i j : Nat)
    (hinv : ScanInv be buf len s i j) (hst : ScanStored be buf s i j)
    (hcond : s.buf_index < len ∧ s.buf_index < 1024 ∧
      (s.toc_item_threshold ≠ (if be then 6 else 8) ∨ s.end_tag ≠ 0)) :
    ∃ s' i' j', (∀ fuel, toc_loop be buf len (fuel + 1) s = toc_loop be buf len fuel s') ∧
      ScanInv be buf len s' i' j' ∧ ScanStored be buf s' i' j' ∧
      tocStart be i' + j' = tocStart be i + j + 1 ∧
      tocStart be i + j ≤ 8 * len := by
  obtain ⟨arr, cnt, thr, item, et, cb, sid, bi, rd⟩ := s
  obtain ⟨hj, hthr, hcb, hbi, het, _⟩ := hinv
  obtain ⟨hitem, hcnt, harr⟩ := hst
  simp only at hj hthr hcb hbi het hcond hitem hcnt harr
  have hw : (if be then 6 else 8) ≤ 8 ∧ 6 ≤ (if be then 6 else 8) := by split <;> omega
  have hpos := tocStart_pos be i
  have hq8 : (tocStart be i + j) % 8 < 8 := Nat.mod_lt _ (by norm_num)
  -- the position is inside the reach of the loop
  have hreach : tocStart be i + j ≤ 8 * len := by
    by_cases h0 : cb = 0
    · simp only [h0, if_true] at hcb hbi
      have : (tocStart be i + j) % 8 = 0 := by
        by_contra hne
        have hlt : 2 ^ (7 - (tocStart be i + j) % 8) < 2 ^ 7 :=
          Nat.pow_lt_pow_right (by norm_num) (by omega)
        omega
      omega
    · simp only [h0, if_false] at hbi
      omega
  have hstep := fun fuel => toc_loop_step_gen be buf len fuel arr cnt thr item et cb sid bi rd
    (tocStart be i + j) hcb hbi hcond.1 hcond.2.1 hcond.2.2 ⟨by omega, by omega⟩
  have hbi' : (tocStart be i + j) / 8 ≤ len := by
    have := cursor_le cb bi _ hbi
    split at hbi <;> omega
  by_cases hlast : thr = 1
  · -- the entry is complete
    subst hlast
    refine ⟨_, i + 1, 0, fun fuel => by rw [hstep fuel, toc_entry_end_last], ?_, ?_, ?_, hreach⟩
    · refine ⟨by omega, by simp, ?_, ?_, ?_, Or.inr ?_⟩
      · simp only [Nat.add_zero, tocStart_succ]
        have e : tocStart be i + (if be then 6 else 8) = tocStart be i + j + 1 := by omega
        rw [e]; exact cbit_wrap _
      · simp only [Nat.add_zero, tocStart_succ]
        have e : tocStart be i + (if be then 6 else 8) = tocStart be i + j + 1 := by omega
        rw [e]; exact cbit_wrap_idx _
      · have hj0 : 0 < j := by omega
        have hne : (1 : Nat) ≠ (if be then 6 else 8) := by omega
        simp only [hne, if_false, het, lastF, hj0, if_true, Nat.lt_irrefl, Nat.succ_pos,
          Nat.add_sub_cancel]
      · exact hbi'
    · refine ⟨by simp [itemAcc, bitsAt], by simp only [hcnt]; omega, ?_⟩
      intro hi255 k hk
      have hc : cnt = i := by rw [hcnt]; exact Nat.mod_eq_of_lt (by omega)
      simp only [hitem]
      rw [tocEntry_of_item be buf (tocStart be i) j (by omega), hc]
      by_cases hki : k = i
      · rw [hki, Function.update_same]
      · rw [Function.update_noteq hki]
        exact harr (by omega) k (by omega)
    · rw [tocStart_succ]; omega
  · -- inside the entry
    refine ⟨_, i, j + 1, fun fuel => by
      rw [hstep fuel, toc_entry_end_mid be arr cnt thr _ _ sid _ _ _ ⟨by omega, by omega⟩], ?_,
      ?_, by omega, hreach⟩
    · refine ⟨by omega, by simp only; omega, ?_, ?_, ?_, Or.inr hbi'⟩
      · rw [← Nat.add_assoc]; exact cbit_wrap _
      · rw [← Nat.add_assoc]; exact cbit_wrap_idx _
      · by_cases hj0 : j = 0
        · subst hj0
          have : thr = (if be then 6 else 8) := by omega
          simp [this, lastF]
        · have hne : thr ≠ (if be then 6 else 8) := by omega
          have hjp : 0 < j := by omega
          simp only [hne, if_false, het, lastF, hjp, if_true, Nat.succ_pos]
    · exact ⟨by simp only [hitem]; exact (itemAcc_snoc buf _ j).symm, hcnt, harr⟩

theorem scanStored_init (be : Bool) (buf : Nat → Nat) :
    ScanStored be buf (tocInit be) 0 0 := by
  refine ⟨by simp [tocInit, itemAcc, bitsAt], by simp [tocInit], fun _ k hk => absurd hk (by omega)⟩

/-- The scan of a handler call on any buffer ends in a state that satisfies
`ScanInv` and `ScanStored`. -/
theorem toc_loop_total_stored (be : Bool) (buf : Nat → Nat) (len : Nat) :
    ∀ (fuel : Nat) (s : TocScan) (i j : Nat), ScanInv be buf len s i j →
      ScanStored be buf s i j → 1 ≤ fuel →
      8 * len + 2 ≤ fuel + (tocStart be i + j) →
      ∃ s' i' j', toc_loop be buf len fuel s = Flow.fallthrough s' ∧
        ScanInv be buf len s' i' j' ∧ ScanStored be buf s' i' j' := by
  intro fuel
  induction fuel with
  | zero => intro s i j _ _ h; omega
  | succ f ih =>
    intro s i j hinv hst _ hfuel
    by_cases hcond : s.buf_index < len ∧ s.buf_index < 1024 ∧
        (s.toc_item_threshold ≠ (if be then 6 else 8) ∨ s.end_tag ≠ 0)
    · obtain ⟨s1, i1, j1, hstep, hinv1, hst1, hpos, hreach⟩ :=
        scan_step_stored be buf len s i j hinv hst hcond
      rw [hstep f]
      exact ih s1 i1 j1 hinv1 hst1 (by omega) (by omega)
    · exact ⟨s, i, j, toc_loop_exit be buf len f s hcond, hinv, hst⟩

theorem scan_total_stored (be : Bool) (buf : Nat → Nat) (len : Nat) :
    ∃ s i j, toc_loop be buf len (8 * len + 8) (tocInit be) = Flow.fallthrough s ∧
      ScanInv be buf len s i j ∧ ScanStored be buf s i j :=
  toc_loop_total_stored be buf len (8 * len + 8) (tocInit be) 0 0 (scanInv_init be buf len)
    (scanStored_init be buf) (by omega) (by omega)

/-- More fuel does not change a result of the loop of `removeLowZeros`. -/
theorem removeLowZeros_loop_succ :
    ∀ (fuel input r : Nat), removeLowZeros_loop fuel input = some r →
      removeLowZeros_loop (fuel + 1) input = some r := by
  intro fuel
  induction fuel with
  | zero => intro input r h; simp [removeLowZeros_loop] at h
  | succ f ih =>
    intro input r h
    rw [removeLowZeros_loop] at h ⊢
    split
    · rename_i hz
      rw [if_pos hz] at h
      exact ih _ _ h
    · rename_i hz
      rw [if_neg hz] at h
      exact h

theorem removeLowZeros_loop_fuel (input r : Nat) (h : removeLowZeros_loop 8 input = some r) :
    ∀ fuel, 8 ≤ fuel → removeLowZeros_loop fuel input = some r := by
  intro fuel hf
  induction fuel, hf using Nat.le_induction with
  | base => exact h
  | succ n _ ih => exact removeLowZeros_loop_succ n input r ih

/-- The loop of `removeLowZeros` on the value 0 does not end: the test of
line 59 is what makes the function return on 0. -/
theorem removeLowZeros_loop_zero : ∀ fuel, removeLowZeros_loop fuel 0 = none := by
  intro fuel
  induction fuel with
  | zero => rfl
  | succ f ih =>
    rw [removeLowZeros_loop]
    simpa using ih

set_option maxRecDepth 1000000 in
theorem removeLowZeros_odd_aux :
    ∀ x < 256, removeLowZeros x = some (x / 2 ^ trailingZeroBits x) ∧
      (x ≠ 0 → (x / 2 ^ trailingZeroBits x) % 2 = 1 ∧
        x = x / 2 ^ trailingZeroBits x * 2 ^ trailingZeroBits x ∧
        trailingZeroBits x < 8 ∧
        x.testBit (trailingZeroBits x) = true ∧
        ∀ i < trailingZeroBits x, x.testBit i = false) := by
  decide

/-! ## The attribute values -/

/-- Values of `atoi`: plain digits, a sign, text behind the digits, and
values beyond `int`, of which the low 32 bits are kept. -/
theorem atoi_values :
    atoi "1" = 1 ∧ atoi "2" = 2 ∧ atoi "" = 0 ∧ atoi "-1" = -1 ∧ atoi " 12x" = 12 ∧
      atoi "2147483647" = 2147483647 ∧ atoi "2147483648" = -2147483648 ∧
      atoi "4294967297" = 1 ∧ atoi "99999999999999999999" = -1 := by
  decide

/-- A channels value beyond `int`: "4294967297" is stored as 1 and the line
is accepted. -/
theorem sdp_line_channels_beyond_int :
    amr_parse_sdp_line (fun _ => [("channels", "4294967297")]) 0 (amr_init ⟨0, 0, 0, 0⟩).1
        "fmtp:97 channels=4294967297" = (⟨0, 0, 0, 1⟩, 0) := by
  decide

end AMR

/-! ## The claims -/

namespace AMR

open AVCodecID

/-- C1: a packet whose buffer ends before any complete TOC entry with F = 0
is not always rejected.  Bandwidth-efficient, one byte 0x00: the four TOC
bits inside the buffer are no whole entry, yet the handler returns 0.
Octet-aligned, bytes 0x00 0x80 with a zero byte behind them: the only TOC
byte has F = 1, yet the handler returns 0. -/
theorem C1_unterminated_toc_accepted :
    amr_handle_packet_bandwidth_efficient (fun _ => 0) AV_CODEC_ID_AMR_NB 1 (mem [0x00] 0xFF) 1 =
        some ⟨0, some 1, [], [0, 0, 0, 0, 1]⟩ ∧
      amr_handle_packet_octet_aligned (fun _ => 0) AV_CODEC_ID_AMR_NB 1 (mem [0x00, 0x80] 0x00) 2 =
        some ⟨0, some 1, [0x00], [1, 1, 1, 1, 1, 1, 1, 1, 2]⟩ := by
  decide

/-- C2, as stated, fails: narrowband frame type 15 has payload bit length 0
and the octet-aligned packet 0x00 0x78 (one TOC entry of type 15) is
accepted, with return code 0 and the TOC byte as output. -/
theorem C2_counterexample :
    payloadBits AV_CODEC_ID_AMR_NB 15 = 0 ∧ tocFt 0x78 = 15 ∧
      amr_handle_packet_octet_aligned (fun _ => 0) AV_CODEC_ID_AMR_NB 1 (mem [0x00, 0x78] 0) 2 =
        some ⟨0, some 1, [0x78], [1, 1, 1, 1, 1, 1, 1, 1]⟩ := by
  decide

/-- C2, amended: a frame type of payload bit length 0 does not make the
handlers fail.  For every codec variant and either mode, every packet whose
TOC chain of `n` entries (at most 255) ends inside the declared length is
accepted whatever the frame types of its entries, those of payload bit
length 0 included: the handler returns 0 when the allocation succeeds. -/
theorem C2_zero_length_frame_type_accepted (octet_align : Int) (av_new_packet : Int → Int)
    (codec_id : AVCodecID) (buf : Nat → Nat) (len n : Nat)
    (hcodec : codec_id ≠ OTHER) (hn : 1 ≤ n) (hn255 : n ≤ 255)
    (hmore : ∀ i, i + 1 < n →
      bitAt buf (if octet_align ≠ 0 then 8 + 8 * i else 4 + 6 * i) = true)
    (hlast : bitAt buf (if octet_align ≠ 0 then 8 + 8 * (n - 1) else 4 + 6 * (n - 1)) = false)
    (hlen : (if octet_align ≠ 0 then 8 + 8 * n else 4 + 6 * n) ≤ 8 * len)
    (halloc : ∀ size, 0 ≤ av_new_packet size) :
    ∃ r, amr_handle_packet octet_align av_new_packet codec_id 1 buf len = some r ∧
      r.ret = 0 := by
  unfold amr_handle_packet
  by_cases h : octet_align = 0
  · simp only [ne_eq, h, not_true_eq_false, if_false] at hmore hlast hlen ⊢
    obtain ⟨r, hr, h0, _⟩ := be_accept av_new_packet codec_id buf len n hcodec hn hn255 hmore
      hlast hlen (halloc _)
    exact ⟨r, hr, h0⟩
  · simp only [ne_eq, h, not_false_eq_true, if_true] at hmore hlast hlen ⊢
    obtain ⟨r, hr, h0, _⟩ := oa_accept av_new_packet codec_id buf len n hcodec hn hn255 hmore
      hlast hlen (halloc _)
    exact ⟨r, hr, h0⟩

/-- C2, amended, at the narrowband octet-aligned packet 0x00 0x78 whose one
entry is of type 15 (payload bit length 0). -/
theorem C2_zero_length_frame_type_accepted_witness :
    payloadBits AV_CODEC_ID_AMR_NB (tocFt (tocEntry false (mem [0x00, 0x78] 0) 8)) = 0 ∧
    ∃ r, amr_handle_packet 1 (fun _ => 0) AV_CODEC_ID_AMR_NB 1 (mem [0x00, 0x78] 0) 2 = some r ∧
      r.ret = 0 :=
  ⟨by decide,
    C2_zero_length_frame_type_accepted 1 (fun _ => 0) AV_CODEC_ID_AMR_NB (mem [0x00, 0x78] 0) 2 1
      (by decide) (by decide) (by decide) (fun i hi => absurd hi (by omega)) (by decide)
      (by decide) (fun _ => le_refl 0)⟩

/-- C3: the handlers read `buf[len]`.  Octet-aligned, `len = 2`: the TOC
scan of 0x00 0x80 reads offset 2, and so does the frame copy of 0x00 0x38
(one entry of type 7, no payload in the buffer). -/
theorem C3_reads_past_declared_length :
    (amr_handle_packet_octet_aligned (fun _ => 0) AV_CODEC_ID_AMR_NB 1
        (mem [0x00, 0x80] 0xFF) 2).map Result.reads = some [1, 1, 1, 1, 1, 1, 1, 1, 2] ∧
      (amr_handle_packet_octet_aligned (fun _ => 0) AV_CODEC_ID_AMR_NB 1
        (mem [0x00, 0x38] 0xFF) 2).map Result.reads = some [1, 1, 1, 1, 1, 1, 1, 1, 2] := by
  decide

set_option maxRecDepth 100000 in
/-- C4: accepted packets for which more bytes are stored than the output
packet was allocated with.  Octet-aligned 0x00 0xB8 0x38 (two entries of
type 7, the payload cut off): 3 bytes stored, 2 allocated.
Bandwidth-efficient wideband 0x0C 0x92 and ten zero bytes (two entries of
type 9 with their 40 payload bits each): 122 bytes stored, 121 allocated.
Bandwidth-efficient narrowband 0x04 0xC0 (one entry of type 9): 61 bytes
stored, 56 allocated. -/
theorem C4_output_exceeds_allocation :
    (amr_handle_packet_octet_aligned (fun _ => 0) AV_CODEC_ID_AMR_NB 1
        (mem [0x00, 0xB8, 0x38] 0xFF) 3).map (fun r => (r.ret, r.pkt_size, r.out.length)) =
        some (0, some 2, 3) ∧
      (amr_handle_packet_bandwidth_efficient (fun _ => 0) AV_CODEC_ID_AMR_WB 1
        (mem [0x0C, 0x92, 0, 0, 0, 0, 0, 0, 0, 0, 0, 0] 0xFF) 12).map
          (fun r => (r.ret, r.pkt_size, r.out.length)) = some (0, some 121, 122) ∧
      (amr_handle_packet_bandwidth_efficient (fun _ => 0) AV_CODEC_ID_AMR_NB 1
        (mem [0x04, 0xC0] 0xFF) 2).map (fun r => (r.ret, r.pkt_size, r.out.length)) =
        some (0, some 56, 61) := by
  decide

/-- C5: bandwidth-efficient single-frame round trip.  For every codec
variant, every frame type `ft` other than 9 with payload bit length P (also
P = 0), every mode request `c` (its low four bits), quality bit `q` and bit
string `d` of length P: on a buffer that holds `c`, the TOC entry (F = 0,
`ft`, `q`) and `d` packed top bit first and filled up with zero bits to a
whole byte, the handler returns 0 and stores the TOC byte `8 * ft + 4 * q`
followed by the (P + pad) / 8 bytes that pack `d` and the pad zero bits. -/
theorem C5_be_single_frame_round_trip (av_new_packet : Int → Int) (codec_id : AVCodecID)
    (ft c : Nat) (q : Bool) (d : List Bool) (buf : Nat → Nat)
    (hcodec : codec_id ≠ OTHER) (hft : ft < 16) (hne : ft ≠ 9)
    (hd : d.length = payloadBits codec_id ft)
    (hbuf : ∀ i < (packBits (beSingleFrameBits c ft q d)).length,
      buf i = (packBits (beSingleFrameBits c ft q d)).getD i 0)
    (halloc : ∀ size, 0 ≤ av_new_packet size) :
    ∃ r, amr_handle_packet_bandwidth_efficient av_new_packet codec_id 1 buf
        (packBits (beSingleFrameBits c ft q d)).length = some r ∧
      r.ret = 0 ∧
      r.out = (8 * ft + 4 * q.toNat) ::
        packBits (d ++ List.replicate (padBits codec_id ft) false) := by
  unfold beSingleFrameBits at hbuf ⊢
  have h6 := bitsAt_packed buf (nibble c) (false :: nibble ft ++ [q]) d hbuf
  have hbuf' : ∀ i < (packBits ((nibble c ++ (false :: nibble ft ++ [q])) ++ d ++ [])).length,
      buf i = (packBits ((nibble c ++ (false :: nibble ft ++ [q])) ++ d ++ [])).getD i 0 := by
    simpa using hbuf
  have hd' := bitsAt_packed buf (nibble c ++ (false :: nibble ft ++ [q])) d [] hbuf'
  have hl4 : (nibble c).length = 4 := rfl
  have hl6 : (false :: nibble ft ++ [q]).length = 6 := rfl
  have hl10 : (nibble c ++ (false :: nibble ft ++ [q])).length = 10 := rfl
  rw [hl4, hl6] at h6
  rw [hl10, hd] at hd'
  obtain ⟨t1, t2, t3⟩ := toc_of_nibble ft q hft
  have hte : tocEntry true buf 4 = 8 * ft + 4 * q.toNat := by
    simp only [tocEntry, if_true, h6, t1]
  have hF : bitAt buf 4 = false := by
    have := congrArg (fun l => l.getD 0 true) h6
    simpa [bitsAt, List.range'] using this
  have hlen : (packBits (nibble c ++ (false :: nibble ft ++ [q]) ++ d)).length =
      (10 + payloadBits codec_id ft + 7) / 8 := by
    rw [packBits_length, List.length_append, hl10, hd]
  obtain ⟨r, hr, h0, _, ho⟩ := be_single_frame av_new_packet codec_id buf
    (packBits (nibble c ++ (false :: nibble ft ++ [q]) ++ d)).length hcodec hF
    (by rw [hte, t2]; exact hne) (by rw [hte, t2, hlen]; omega) (halloc _)
  refine ⟨r, hr, h0, ?_⟩
  rw [ho, hte, t2, t3, hd']

theorem C5_be_single_frame_round_trip_witness :
    ∃ r, amr_handle_packet_bandwidth_efficient (fun _ => 0) AV_CODEC_ID_AMR_NB 1
        (mem (packBits (beSingleFrameBits 5 8 true (List.replicate 39 true))) 0)
        (packBits (beSingleFrameBits 5 8 true (List.replicate 39 true))).length = some r ∧
      r.ret = 0 ∧
      r.out = (8 * 8 + 4 * (true : Bool).toNat) ::
        packBits (List.replicate 39 true ++ List.replicate (padBits AV_CODEC_ID_AMR_NB 8) false) :=
  C5_be_single_frame_round_trip (fun _ => 0) AV_CODEC_ID_AMR_NB 8 5 true (List.replicate 39 true)
    (mem (packBits (beSingleFrameBits 5 8 true (List.replicate 39 true))) 0)
    (by decide) (by decide) (by decide) (by decide)
    (fun _ _ => rfl) (fun _ => le_refl 0)

/-- C6: octet-aligned well-formed packets.  For every codec variant and
entries (TOC byte, frame) numbering 1 to 255, where the top bit is set on
all TOC bytes but the last and each frame has (payload + filler) / 8 bytes
for the frame type of its TOC byte, with zero filler bits: on a buffer that
holds the mode-request byte, the TOC bytes and the frames, the handler
returns 0, allocates `len - 1` bytes and stores, entry by entry, the TOC
byte masked with 0x7C followed by the frame. -/
theorem C6_octet_aligned_well_formed (av_new_packet : Int → Int) (codec_id : AVCodecID)
    (cmr : Nat) (entries : List (Nat × List Nat)) (buf : Nat → Nat)
    (hcodec : codec_id ≠ OTHER) (hn : 1 ≤ entries.length) (hn255 : entries.length ≤ 255)
    (htoc : ∀ e ∈ entries, e.1 < 256)
    (hmore : ∀ i, i + 1 < entries.length → 128 ≤ (entries.map Prod.fst).getD i 0)
    (hlast : (entries.map Prod.fst).getD (entries.length - 1) 0 < 128)
    (hsz : ∀ e ∈ entries,
      8 * e.2.length = payloadBits codec_id (tocFt e.1) + padBits codec_id (tocFt e.1))
    (hbyte : ∀ e ∈ entries, ∀ b ∈ e.2, b < 256)
    (hzero : ∀ e ∈ entries, e.2.getD (e.2.length - 1) 0 % 2 ^ padBits codec_id (tocFt e.1) = 0)
    (hbuf : ∀ i < (oaPacket cmr entries).length, buf i = (oaPacket cmr entries).getD i 0)
    (halloc : ∀ size, 0 ≤ av_new_packet size) :
    ∃ r, amr_handle_packet_octet_aligned av_new_packet codec_id 1 buf
        (oaPacket cmr entries).length = some r ∧
      r.ret = 0 ∧ r.pkt_size = some (((oaPacket cmr entries).length : Int) - 1) ∧
      r.out = (entries.map (fun e => (e.1 &&& 0x7C) :: e.2)).flatten := by
  have hplen : (oaPacket cmr entries).length =
      1 + entries.length + (entries.map Prod.snd).flatten.length := by
    simp [oaPacket]; omega
  -- the TOC bytes in the buffer
  have htb : ∀ i < entries.length, buf (1 + i) = (entries.map Prod.fst).getD i 0 := by
    intro i hi
    rw [hbuf (1 + i) (by omega)]
    simp only [oaPacket, Nat.add_comm 1 i, List.getD_cons_succ]
    exact List.getD_append _ _ _ _ (by simpa using hi)
  have htlt : ∀ i < entries.length, (entries.map Prod.fst).getD i 0 < 256 := by
    intro i hi
    rw [List.getD_eq_getElem _ _ (by simpa using hi), List.getElem_map]
    exact htoc _ (List.getElem_mem _)
  -- the frames in the buffer
  have hfb : ∀ i < (entries.map Prod.snd).flatten.length,
      buf (1 + entries.length + i) = (entries.map Prod.snd).flatten.getD i 0 := by
    intro i hi
    have e : 1 + entries.length + i = (entries.length + i) + 1 := by omega
    rw [hbuf _ (by omega), e]
    simp only [oaPacket, List.getD_cons_succ]
    rw [List.getD_append_right _ _ _ _ (by simp)]
    simp
  have hbit : ∀ i < entries.length,
      bitAt buf (8 + 8 * i) = decide (128 ≤ (entries.map Prod.fst).getD i 0) := by
    intro i hi
    have e : 8 + 8 * i = 8 * (1 + i) + 0 := by omega
    rw [e, bitAt_aligned buf _ 0 (by omega), htb i hi, Nat.mod_eq_of_lt (htlt i hi)]
    exact testBit7_of_ge _ (htlt i hi)
  obtain ⟨arr, rd, hscan, harr⟩ := oa_scan buf (oaPacket cmr entries).length entries.length hn
    hn255 (fun i hi => by rw [hbit i (by omega)]; simpa using hmore i hi)
    (by rw [hbit _ (by omega)]; simpa using hlast) (by omega)
  have harr' : ∀ i < entries.length, arr (0 + i) = (entries.map Prod.fst).getD i 0 := by
    intro i hi
    have e : 8 + 8 * i = 8 * (1 + i) := by omega
    rw [Nat.zero_add, harr i hi, tocEntry, e]
    simp only [Bool.false_eq_true, if_false]
    rw [byteOfBits_aligned, htb i hi, Nat.mod_eq_of_lt (htlt i hi)]
  obtain ⟨rd', hemit⟩ := oa_emit codec_id buf (oaPacket cmr entries).length arr entries 0
    (1 + entries.length) [] rd (by omega) harr' hfb (by omega) hsz hbyte hzero
  have e8 : 8 + 8 * entries.length = 8 * (1 + entries.length) := by omega
  rw [e8] at hscan
  have h := handle_packet_of_scan false av_new_packet codec_id buf _ _ _ hcodec hscan rfl
    (by show bidx (8 * (1 + entries.length)) ≤ _; unfold bidx; omega) (halloc _) hemit
  exact ⟨_, h, rfl, by simp [allocSize], by simp⟩

theorem C6_octet_aligned_well_formed_witness :
    ∃ r, amr_handle_packet_octet_aligned (fun _ => 0) AV_CODEC_ID_AMR_NB 1
        (mem (oaPacket 0xF0 [(0xC3, [1, 2, 3, 4, 0x80]), (0x78, [])]) 0xFF)
        (oaPacket 0xF0 [(0xC3, [1, 2, 3, 4, 0x80]), (0x78, [])]).length = some r ∧
      r.ret = 0 ∧
      r.pkt_size =
        some (((oaPacket 0xF0 [(0xC3, [1, 2, 3, 4, 0x80]), (0x78, [])]).length : Int) - 1) ∧
      r.out = [0x40, 1, 2, 3, 4, 0x80, 0x78] :=
  C6_octet_aligned_well_formed (fun _ => 0) AV_CODEC_ID_AMR_NB 0xF0
    [(0xC3, [1, 2, 3, 4, 0x80]), (0x78, [])]
    (mem (oaPacket 0xF0 [(0xC3, [1, 2, 3, 4, 0x80]), (0x78, [])]) 0xFF)
    (by decide) (by decide) (by decide) (by decide)
    (fun i hi => by
      have h0 : i = 0 := by simp only [List.length_cons, List.length_nil] at hi; omega
      subst h0
      decide)
    (by decide) (by decide) (by decide) (by decide) (fun i hi => mem_eq _ _ i hi)
    (fun _ => le_refl 0)

/-- C7: a bandwidth-efficient narrowband packet with two frames of type 8
packed back to back (39 zero bits, then a one bit and 38 zero bits).  The
second frame comes out as five zero bytes: its first bit is skipped. -/
theorem C7_second_frame_misread :
    (amr_handle_packet_bandwidth_efficient (fun _ => 0) AV_CODEC_ID_AMR_NB 1
        (mem (packBits ([false, false, false, false] ++ [true, true, false, false, false, false]
          ++ [false, true, false, false, false, false] ++ List.replicate 39 false
          ++ (true :: List.replicate 38 false))) 0) 12).map (fun r => (r.ret, r.out)) =
        some (0, [0x40, 0, 0, 0, 0, 0, 0x40, 0, 0, 0, 0, 0]) ∧
      0x40 :: packBits (List.replicate 39 false ++ [false]) ++
          0x40 :: packBits ((true :: List.replicate 38 false) ++ [false]) =
        [0x40, 0, 0, 0, 0, 0, 0x40, 0x80, 0, 0, 0, 0] := by
  decide

/-- C8: a bandwidth-efficient packet of a single entry of type 9 whose
output packet is shorter than the 61 bytes stored.  Narrowband 0x04 0xC0,
declared length 2: the handler returns 0 and stores 0x44 and 60 zero bytes,
with no TOC byte, into a packet allocated with 2 + 55 - 1 = 56 bytes. -/
theorem C8_sid_block_exceeds_allocation :
    bitAt (mem [0x04, 0xC0] 0) 4 = false ∧ tocFt (tocEntry true (mem [0x04, 0xC0] 0) 4) = 9 ∧
      (amr_handle_packet_bandwidth_efficient (fun _ => 0) AV_CODEC_ID_AMR_NB 1
        (mem [0x04, 0xC0] 0) 2).map (fun r => (r.ret, r.pkt_size, r.out, r.out.length)) =
        some (0, some 56, 0x44 :: List.replicate 60 0x00, 61) := by
  decide

/-- The bytes stored for a single entry of type 9: for every codec variant
and every bandwidth-efficient packet of declared length at least 2 whose TOC
chain is a single entry of frame type 9, the handler returns 0 and the bytes
stored are exactly 61, 0x44 followed by 60 zero bytes, with no TOC byte.
The output packet is allocated with `len + 54` bytes, which is 61 only for
the declared length 7. -/
theorem single_sid_block_stored (av_new_packet : Int → Int) (codec_id : AVCodecID)
    (buf : Nat → Nat) (len : Nat) (hcodec : codec_id ≠ OTHER) (hF : bitAt buf 4 = false)
    (h9 : tocFt (tocEntry true buf 4) = 9) (hlen : 2 ≤ len)
    (halloc : ∀ size, 0 ≤ av_new_packet size) :
    ∃ r, amr_handle_packet_bandwidth_efficient av_new_packet codec_id 1 buf len = some r ∧
      r.ret = 0 ∧ r.out = 0x44 :: List.replicate 60 0x00 ∧ r.out.length = 61 ∧
      r.pkt_size = some ((len : Int) + 54) ∧ (len = 7 → r.pkt_size = some 61) := by
  obtain ⟨r, hr, h0, hs, ho⟩ := be_single_sid av_new_packet codec_id buf len hcodec hF h9 hlen
    (halloc _)
  refine ⟨r, hr, h0, ho, by rw [ho]; rfl, hs, fun h7 => ?_⟩
  subst h7
  rw [hs]
  rfl

/-- The wideband packet 0x04 0xC0 1 2 3 4 5 of declared length 7: 61 bytes
stored, 61 allocated. -/
theorem single_sid_block_stored_example :
    ∃ r, amr_handle_packet_bandwidth_efficient (fun _ => 0) AV_CODEC_ID_AMR_WB 1
        (mem [0x04, 0xC0, 1, 2, 3, 4, 5] 0) 7 = some r ∧
      r.ret = 0 ∧ r.out = 0x44 :: List.replicate 60 0x00 ∧ r.out.length = 61 ∧
      r.pkt_size = some (((7 : Nat) : Int) + 54) ∧ ((7 : Nat) = 7 → r.pkt_size = some 61) :=
  single_sid_block_stored (fun _ => 0) AV_CODEC_ID_AMR_WB (mem [0x04, 0xC0, 1, 2, 3, 4, 5] 0) 7
    (by decide) (by decide) (by decide) (by decide) (fun _ => le_refl 0)

/-- C9, as stated, fails: the wideband packet 0x04 0xC0 0 0 0 0 0 has
declared length 7 and one entry of type 9; the output packet is allocated
with 61 bytes, not 7 + 55. -/
theorem C9_counterexample :
    sidCount (mem [0x04, 0xC0, 0, 0, 0, 0, 0] 0) 4 1 = 1 ∧
      (amr_handle_packet_bandwidth_efficient (fun _ => 0) AV_CODEC_ID_AMR_WB 1
        (mem [0x04, 0xC0, 0, 0, 0, 0, 0] 0) 7).map (fun r => (r.ret, r.pkt_size)) =
        some (0, some 61) := by
  decide

/-- C9, amended: in bandwidth-efficient mode, for every packet whose TOC
chain of `n` entries (at most 255) ends inside the declared length `len`
and holds `k` entries of frame type 9, the output packet is allocated with
`len` bytes when `k = 0` and with `len + 55 * k - 1` bytes when `k ≥ 1`. -/
theorem C9_allocated_length (av_new_packet : Int → Int) (codec_id : AVCodecID)
    (buf : Nat → Nat) (len n : Nat) (hcodec : codec_id ≠ OTHER) (hn : 1 ≤ n) (hn255 : n ≤ 255)
    (hmore : ∀ i, i + 1 < n → bitAt buf (4 + 6 * i) = true)
    (hlast : bitAt buf (4 + 6 * (n - 1)) = false)
    (hlen : 4 + 6 * n ≤ 8 * len)
    (halloc : ∀ size, 0 ≤ av_new_packet size) :
    ∃ r, amr_handle_packet_bandwidth_efficient av_new_packet codec_id 1 buf len = some r ∧
      r.ret = 0 ∧
      r.pkt_size = some (if sidCount buf 4 n = 0 then (len : Int)
        else (len : Int) + 55 * (sidCount buf 4 n : Int) - 1) := by
  obtain ⟨r, hr, h0, hs⟩ := be_accept av_new_packet codec_id buf len n hcodec hn hn255 hmore
    hlast hlen (halloc _)
  refine ⟨r, hr, h0, ?_⟩
  rw [hs]
  congr 1
  unfold allocSize
  by_cases hk : sidCount buf 4 n = 0
  · simp [hk]
  · have hpos : (1 : Int) ≤ (sidCount buf 4 n : Int) := by omega
    have h1 : 55 * (sidCount buf 4 n : Int) - 1 > 0 := by omega
    simp only [if_true, h1, hk, if_false]
    omega

theorem C9_allocated_length_witness :
    ∃ r, amr_handle_packet_bandwidth_efficient (fun _ => 0) AV_CODEC_ID_AMR_WB 1
        (mem [0x04, 0xC0, 0, 0, 0, 0, 0] 0) 7 = some r ∧ r.ret = 0 ∧
      r.pkt_size = some (if sidCount (mem [0x04, 0xC0, 0, 0, 0, 0, 0] 0) 4 1 = 0 then ((7 : Nat) : Int)
        else ((7 : Nat) : Int) + 55 * (sidCount (mem [0x04, 0xC0, 0, 0, 0, 0, 0] 0) 4 1 : Int) - 1) :=
  C9_allocated_length (fun _ => 0) AV_CODEC_ID_AMR_WB (mem [0x04, 0xC0, 0, 0, 0, 0, 0] 0) 7 1
    (by decide) (by decide) (by decide) (fun i hi => absurd hi (by omega)) (by decide)
    (by decide) (fun _ => le_refl 0)

/-- C11: an accepted octet-aligned packet whose TOC chain has 256 entries
(bytes 1..255 are 0xF8, byte 256 is 0x78, all of frame type 15, declared
length 257): the handler returns 0 with 256 bytes allocated and stores no
byte, so the number of frames emitted is 0, not 256. -/
theorem C11_entry_counter_wraps :
    ∃ r, amr_handle_packet_octet_aligned (fun _ => 0) AV_CODEC_ID_AMR_NB 1
        (fun i => if i = 0 then 0x00 else if i < 256 then 0xF8 else if i = 256 then 0x78 else 0x00)
        257 = some r ∧
      r.ret = 0 ∧ r.pkt_size = some 256 ∧ r.out = [] := by
  have hb : ∀ i, i < 256 → bitAt (fun i => if i = 0 then 0x00 else if i < 256 then 0xF8
      else if i = 256 then 0x78 else 0x00) (8 + 8 * i) = decide (i < 255) := by
    intro i hi
    have e : 8 + 8 * i = 8 * (1 + i) + 0 := by omega
    rw [e, bitAt_aligned _ _ 0 (by omega)]
    by_cases h : i < 255
    · have h1 : ¬ (1 + i = 0) := by omega
      have h2 : 1 + i < 256 := by omega
      simp only [h1, if_false, h2, if_true, h]
      decide
    · have h0 : i = 255 := by omega
      subst h0
      decide
  exact oa_256_entries (fun _ => 0) AV_CODEC_ID_AMR_NB _ 257 (by decide)
    (fun i hi => by rw [hb i (by omega)]; simpa using hi) (by rw [hb 255 (by omega)]; decide)
    (le_refl _) (le_refl 0)

/-- C12, as stated, fails: the octet-aligned packet 0x00 0x7C holds one
entry of frame type 15 with the quality bit set; the TOC byte stored is
0x7C, not 15 << 3 = 0x78. -/
theorem C12_counterexample :
    tocFt 0x7C = 15 ∧ 15 <<< 3 = 0x78 ∧
      amr_handle_packet_octet_aligned (fun _ => 0) AV_CODEC_ID_AMR_NB 1 (mem [0x00, 0x7C] 0) 2 =
        some ⟨0, some 1, [0x7C], [1, 1, 1, 1, 1, 1, 1, 1]⟩ := by
  decide

/-- C12, amended: in both modes (`be` false: octet-aligned, true:
bandwidth-efficient), in every pass of the loop over the stored entries
for an entry that is emitted with a TOC byte (every entry in octet-aligned
mode, the entries of a type other than 9 in bandwidth-efficient mode), the
first byte stored is `(frame_type << 3) | (quality << 2)`, the stored
entry masked with 0x7C: the F bit and the two padding bits do not enter
it, the quality bit does. -/
theorem C12_toc_byte (be : Bool) (frame_sizes frame_add_sizes : List Nat) (buf : Nat → Nat)
    (len : Nat) (toc_item_array : Nat → Nat) (n toc_index : Nat) (e : Emit)
    (hemit : be = false ∨ tocFt (toc_item_array toc_index) ≠ 9) :
    ∃ e' rest, toc_index_loop be frame_sizes frame_add_sizes buf len toc_item_array (n + 1)
        toc_index e = some e' ∧
      e'.out = e.out ++ (8 * tocFt (toc_item_array toc_index) +
        4 * ((toc_item_array toc_index).testBit 2).toNat) :: rest := by
  have hstore : (!be || (toc_item_array toc_index &&& 124) >>> 3 != 9) = true := by
    rcases hemit with h | h
    · simp [h]
    · unfold tocFt at h
      simp [h]
  have hns : ¬ (be = true ∧ (toc_item_array toc_index &&& 124) >>> 3 = 9) := by
    intro h
    simp [h.1, h.2] at hstore
  rw [toc_index_loop]
  simp only [hstore, if_true, hns, if_false]
  obtain ⟨e2, r2, h2, o2⟩ := frame_loop_out_grows true buf len
    (frame_sizes.getD ((toc_item_array toc_index &&& 124) >>> 3) 0)
    { e with out := e.out ++ [toc_item_array toc_index &&& 124] }
  obtain ⟨e3, r3, h3, o3⟩ := zero_loop_out_grows true
    (frame_add_sizes.getD ((toc_item_array toc_index &&& 124) >>> 3) 0) e2
  obtain ⟨e', r4, h4, o4⟩ := toc_index_loop_out_grows be frame_sizes frame_add_sizes buf len
    toc_item_array n (toc_index + 1) e3
  simp only [h2, h3]
  refine ⟨e', r2 ++ (r3 ++ r4), h4, ?_⟩
  rw [o4, o3, o2, ← toc_byte_eq]
  simp only [List.append_assoc, List.singleton_append, List.cons_append, List.nil_append]

/-- C12, amended, at the stored entry 0x7C (frame type 15, quality bit set)
in octet-aligned mode. -/
theorem C12_toc_byte_witness :
    ∃ e' rest, toc_index_loop false frame_sizes_nb_bandwidth_efficient
        frame_sizes_nb_add_bandwidth_efficient (mem [0x00, 0x7C] 0) 2 (fun _ => 0x7C) (0 + 1) 0
        ⟨0, 1, 0, 8, [], []⟩ = some e' ∧
      e'.out = ([] : List Nat) ++ (8 * tocFt ((fun _ => 0x7C) 0) +
        4 * (((fun _ => 0x7C) 0 : Nat).testBit 2).toNat) :: rest :=
  C12_toc_byte false frame_sizes_nb_bandwidth_efficient frame_sizes_nb_add_bandwidth_efficient
    (mem [0x00, 0x7C] 0) 2 (fun _ => 0x7C) 0 0 ⟨0, 1, 0, 8, [], []⟩ (Or.inl rfl)

/-- C13: atomicity on error.  Every call of either handler returns; when
the return code is not 0 (InvalidData or the code of a failed allocation)
no byte has been stored and no output packet was allocated, and once the
output packet is allocated the return code is 0. -/
theorem C13_atomic_on_error (octet_align : Int) (av_new_packet : Int → Int)
    (codec_id : AVCodecID) (nb_channels : Int) (buf : Nat → Nat) (len : Nat) :
    ∃ r, amr_handle_packet octet_align av_new_packet codec_id nb_channels buf len = some r ∧
      (r.ret ≠ 0 → r.out = [] ∧ r.pkt_size = none) ∧ (r.pkt_size ≠ none → r.ret = 0) := by
  have key : ∀ be, ∃ r, amr_handle_packet_mode be av_new_packet codec_id nb_channels buf len =
      some r ∧ (r.ret ≠ 0 → r.out = [] ∧ r.pkt_size = none) ∧ (r.pkt_size ≠ none → r.ret = 0) := by
    intro be
    obtain ⟨r, hr, h | h⟩ := handle_packet_total be av_new_packet codec_id nb_channels buf len
    · exact ⟨r, hr, fun _ => ⟨h.2.2, h.2.1⟩, fun hp => absurd h.2.1 hp⟩
    · exact ⟨r, hr, fun hne => absurd h.1 hne, fun _ => h.1⟩
  unfold amr_handle_packet amr_handle_packet_octet_aligned amr_handle_packet_bandwidth_efficient
  split
  · exact key false
  · exact key true

/-- C14: for each of the four recognised attributes and every prior
configuration, `amr_parse_fmtp` with an empty value leaves the
configuration as the same call with the value "1" does: the field of the
attribute is 1, the other three fields are as before, the return code 0. -/
theorem C14_empty_value_is_one (data : PayloadContext) :
    (amr_parse_fmtp data "octet-align" "" = amr_parse_fmtp data "octet-align" "1" ∧
      amr_parse_fmtp data "octet-align" "" = ({ data with octet_align := 1 }, 0)) ∧
    (amr_parse_fmtp data "crc" "" = amr_parse_fmtp data "crc" "1" ∧
      amr_parse_fmtp data "crc" "" = ({ data with crc := 1 }, 0)) ∧
    (amr_parse_fmtp data "interleaving" "" = amr_parse_fmtp data "interleaving" "1" ∧
      amr_parse_fmtp data "interleaving" "" = ({ data with interleaving := 1 }, 0)) ∧
    (amr_parse_fmtp data "channels" "" = amr_parse_fmtp data "channels" "1" ∧
      amr_parse_fmtp data "channels" "" = ({ data with channels := 1 }, 0)) := by
  have h1 : atoi "1" = 1 := by decide
  refine ⟨⟨?_, ?_⟩, ⟨?_, ?_⟩, ⟨?_, ?_⟩, ⟨?_, ?_⟩⟩ <;>
    simp [amr_parse_fmtp, h1]

/-- C15 does not hold for a line handed over with a negative `st_index`:
line 468 returns 0 before anything is parsed.  With a configuration whose
crc is already 1 the line "fmtp:97 channels=2" is answered with 0 and the
configuration is left as it was, crc 1 and channels 1. -/
theorem C15_counterexample :
    amr_parse_sdp_line (fun _ => [("channels", "2")]) (-1) ⟨0, 1, 0, 1⟩ "fmtp:97 channels=2" =
      (⟨0, 1, 0, 1⟩, 0) := by
  decide

/-- C15, amended: with a negative `st_index`, `amr_parse_sdp_line` returns 0
and leaves the configuration as it was, whatever it holds.  For every fmtp
line handed over for a stream (`st_index` not negative) it leaves the
configuration as `ff_parse_fmtp` with `amr_parse_fmtp` left it and returns
-1 if and only if in that configuration crc != 0 or interleaving != 0 or
channels != 1; otherwise it returns 0.  In particular a zeroed
configuration initialised by `amr_init` is rejected when the line gives
channels=2 and accepted when it gives octet-align only (with the value 1 or
with no value). -/
theorem C15_sdp_line_validation (tokens : List Char → List (String × String)) (st_index : Int)
    (data : PayloadContext) (line : String) :
    (st_index < 0 → amr_parse_sdp_line tokens st_index data line = (data, 0)) ∧
    (0 ≤ st_index → ∀ p, av_strstart line.data "fmtp:".data = some p →
      (amr_parse_sdp_line tokens st_index data line).1 =
          (ff_parse_fmtp data amr_parse_fmtp (tokens p)).1 ∧
        ((amr_parse_sdp_line tokens st_index data line).2 = -1 ↔
          (amr_parse_sdp_line tokens st_index data line).1.crc ≠ 0 ∨
          (amr_parse_sdp_line tokens st_index data line).1.interleaving ≠ 0 ∨
          (amr_parse_sdp_line tokens st_index data line).1.channels ≠ 1) ∧
        ((amr_parse_sdp_line tokens st_index data line).2 = -1 ∨
          (amr_parse_sdp_line tokens st_index data line).2 = 0) ∧
        (tokens p = [("channels", "2")] →
          (amr_parse_sdp_line tokens st_index (amr_init ⟨0, 0, 0, 0⟩).1 line).2 = -1) ∧
        (tokens p = [("octet-align", "1")] ∨ tokens p = [("octet-align", "")] →
          amr_parse_sdp_line tokens st_index (amr_init ⟨0, 0, 0, 0⟩).1 line =
            (⟨1, 0, 0, 1⟩, 0))) := by
  refine ⟨fun hneg => by simp only [amr_parse_sdp_line, hneg, if_true], fun hst p hline => ?_⟩
  have hc : ∀ (pairs : List (String × String)) (d : PayloadContext),
      (ff_parse_fmtp d amr_parse_fmtp pairs).2 = 0 := by
    intro pairs
    induction pairs with
    | nil => intro d; rfl
    | cons x xs ih =>
      intro d
      obtain ⟨a, v⟩ := x
      have h0 : (amr_parse_fmtp d a v).2 = 0 := by
        unfold amr_parse_fmtp
        dsimp only
        split_ifs <;> rfl
      simp only [ff_parse_fmtp, h0, lt_self_iff_false, if_false]
      exact ih _
  have hns : ¬ st_index < 0 := by omega
  have key : ∀ d, amr_parse_sdp_line tokens st_index d line =
      if (ff_parse_fmtp d amr_parse_fmtp (tokens p)).1.crc ≠ 0 ∨
          (ff_parse_fmtp d amr_parse_fmtp (tokens p)).1.interleaving ≠ 0 ∨
          (ff_parse_fmtp d amr_parse_fmtp (tokens p)).1.channels ≠ 1
        then ((ff_parse_fmtp d amr_parse_fmtp (tokens p)).1, -1)
        else ((ff_parse_fmtp d amr_parse_fmtp (tokens p)).1, 0) := by
    intro d
    simp only [amr_parse_sdp_line, hns, if_false, hline]
    split
    · rfl
    · exact Prod.ext rfl (hc _ _)
  have h1 : atoi "1" = 1 := by decide
  have h2 : atoi "2" = 2 := by decide
  refine ⟨?_, ?_, ?_, ?_, ?_⟩
  · rw [key]; split <;> rfl
  · rw [key]
    split
    · rename_i h; simpa using h
    · rename_i h; simpa using h
  · rw [key]; split
    · exact Or.inl rfl
    · exact Or.inr rfl
  · intro ht
    rw [key, ht]
    simp [ff_parse_fmtp, amr_parse_fmtp, amr_init, h2]
  · intro ht
    rw [key]
    rcases ht with ht | ht <;> rw [ht] <;> simp [ff_parse_fmtp, amr_parse_fmtp, amr_init, h1]

/-- C15, amended, at the line "fmtp:97 channels=2": with `st_index` -3 a
configuration of two channels is left as it is and 0 is returned; with
`st_index` 0 the line is rejected. -/
theorem C15_sdp_line_validation_witness :
    amr_parse_sdp_line (fun _ => [("channels", "2")]) (-3) ⟨1, 0, 1, 2⟩ "fmtp:97 channels=2" =
        (⟨1, 0, 1, 2⟩, 0) ∧
      (amr_parse_sdp_line (fun _ => [("channels", "2")]) 0 (amr_init ⟨0, 0, 0, 0⟩).1
        "fmtp:97 channels=2").2 = -1 :=
  ⟨(C15_sdp_line_validation (fun _ => [("channels", "2")]) (-3) ⟨1, 0, 1, 2⟩
      "fmtp:97 channels=2").1 (by decide),
    ((C15_sdp_line_validation (fun _ => [("channels", "2")]) 0 (amr_init ⟨0, 0, 0, 0⟩).1
      "fmtp:97 channels=2").2 (by decide) "97 channels=2".data (by decide)).2.2.2.1 rfl⟩

/-- C17: an accepted octet-aligned packet whose last stored TOC entry has
its continuation bit set.  Bytes 0x00 0x80 with a zero byte behind them,
declared length 2: the scan ends with `end_tag` 0 and one stored entry,
0x80, and the handler returns 0. -/
theorem C17_last_stored_entry_continues :
    (match toc_loop false (mem [0x00, 0x80] 0x00) 2 (8 * 2 + 8) (tocInit false) with
      | Flow.fallthrough s =>
        some (s.end_tag, s.toc_item_count, s.toc_item_array 0, (s.toc_item_array 0).testBit 7)
      | _ => none) = some (0, 1, 0x80, true) ∧
      amr_handle_packet_octet_aligned (fun _ => 0) AV_CODEC_ID_AMR_NB 1 (mem [0x00, 0x80] 0x00) 2 =
        some ⟨0, some 1, [0x00], [1, 1, 1, 1, 1, 1, 1, 1, 2]⟩ := by
  decide

/-- C18: for both codec variants and every frame type `ft` in 0..15 the
filler bit count is the least number of bits that rounds the payload up to
whole bytes, `pad = (8 - payload mod 8) mod 8`, and payload and filler
together are 8 times the entry of the byte-length table (`frame_sizes_nb`,
`frame_sizes_wb`). -/
theorem C18_filler_rounds_to_bytes : ∀ ft < 16,
    (padBits AV_CODEC_ID_AMR_NB ft = (8 - payloadBits AV_CODEC_ID_AMR_NB ft % 8) % 8 ∧
      payloadBits AV_CODEC_ID_AMR_NB ft + padBits AV_CODEC_ID_AMR_NB ft =
        8 * frame_sizes_nb.getD ft 0) ∧
    (padBits AV_CODEC_ID_AMR_WB ft = (8 - payloadBits AV_CODEC_ID_AMR_WB ft % 8) % 8 ∧
      payloadBits AV_CODEC_ID_AMR_WB ft + padBits AV_CODEC_ID_AMR_WB ft =
        8 * frame_sizes_wb.getD ft 0) := by
  decide

/-- C18 at wideband frame type 1: 177 payload bits, 7 filler bits, 23 bytes. -/
theorem C18_filler_rounds_to_bytes_witness :
    padBits AV_CODEC_ID_AMR_WB 1 = (8 - payloadBits AV_CODEC_ID_AMR_WB 1 % 8) % 8 ∧
      payloadBits AV_CODEC_ID_AMR_WB 1 + padBits AV_CODEC_ID_AMR_WB 1 = 8 * 23 :=
  (C18_filler_rounds_to_bytes 1 (by decide)).2

/-- C19, as stated, fails: in octet-aligned mode with declared length 0 the
scan ends without a pass, with `buf_index` at its initial 1, above `len`;
no continuation bit was read and the handler returns InvalidData. -/
theorem C19_counterexample :
    (match toc_loop false (mem [] 0) 0 (8 * 0 + 8) (tocInit false) with
      | Flow.fallthrough s => some (s.buf_index, s.end_tag, s.reads)
      | _ => none) = some (1, 1, []) ∧
      amr_handle_packet_octet_aligned (fun _ => 0) AV_CODEC_ID_AMR_NB 1 (mem [] 0) 0 =
        some ⟨AVERROR_INVALIDDATA, none, [], []⟩ := by
  decide

/-- C19, amended: in both TOC scans (`be` false: octet-aligned, true:
bandwidth-efficient) the loop is never left through the 'invalid
toc_item_threshold' return, whatever the number of passes; it ends `j` bits
into some entry `i` with the bit counter at the entry width less `j` (so
within 1..8, resp. 1..6) and, once a bit was read, with `buf_index` at most
`len`, so that `buf_index > len` is false whenever `end_tag` is 0.  Given a
supported codec and a mono stream, the handler returns InvalidData if and
only if `end_tag`, which is 1 until a bit is read and then the last
continuation bit read, is 1 when the scan ends; when it is 0 and the
allocation succeeds the handler returns 0, whatever payload the buffer
holds. -/
theorem C19_scan_invariants (be : Bool) (av_new_packet : Int → Int) (codec_id : AVCodecID)
    (buf : Nat → Nat) (len : Nat) (hcodec : codec_id ≠ OTHER)
    (halloc : ∀ size, av_new_packet size ≠ AVERROR_INVALIDDATA) :
    (∀ fuel code s', toc_loop be buf len fuel (tocInit be) ≠ Flow.returned code s') ∧
    ∃ s i j, toc_loop be buf len (8 * len + 8) (tocInit be) = Flow.fallthrough s ∧
      ScanInv be buf len s i j ∧
      1 ≤ s.toc_item_threshold ∧ s.toc_item_threshold ≤ (if be then 6 else 8) ∧
      (s.end_tag = 0 → s.buf_index ≤ len) ∧
      ∃ r, amr_handle_packet_mode be av_new_packet codec_id 1 buf len = some r ∧
        (r.ret = AVERROR_INVALIDDATA ↔ lastF be buf i j = 1) ∧
        (lastF be buf i j = 0 → 0 ≤ av_new_packet (allocSize be len s.sid_count) →
          r.ret = 0) := by
  refine ⟨fun fuel code s' =>
    toc_loop_never_returns be buf len fuel (tocInit be) 0 0 (scanInv_init be buf len) code s', ?_⟩
  obtain ⟨s, i, j, hscan, hinv, _⟩ := scan_total be buf len
  obtain ⟨hj, hthr, _, _, het, hbi⟩ := id hinv
  have hle := lastF_le be buf i j
  have hbuf : s.end_tag = 0 → s.buf_index ≤ len := by
    intro h0
    rcases hbi with ⟨hi0, hj0⟩ | h
    · subst hi0; subst hj0
      rw [het] at h0
      simp [lastF] at h0
    · exact h
  obtain ⟨r, hr, hbad, hgood⟩ := handle_packet_cases be av_new_packet codec_id buf len s hcodec
    hscan
  have hw : (if be then 6 else 8) ≤ 8 ∧ 6 ≤ (if be then 6 else 8) := by split <;> omega
  refine ⟨s, i, j, hscan, hinv, by omega, by omega, hbuf, r, hr, ?_, ?_⟩
  · constructor
    · intro hret
      by_contra hne
      have h0 : s.end_tag = 0 := by omega
      have hnb : ¬ (s.end_tag ≠ 0 ∨ s.buf_index > len) := by
        have := hbuf h0
        omega
      obtain ⟨h1, h2⟩ := hgood hnb
      by_cases hal : av_new_packet (allocSize be len s.sid_count) < 0
      · exact halloc _ ((h1 hal).symm.trans hret)
      · rw [h2 hal] at hret
        exact absurd hret (by decide)
    · intro h1
      exact hbad (Or.inl (by omega))
  · intro h0 hal
    have hnb : ¬ (s.end_tag ≠ 0 ∨ s.buf_index > len) := by
      have := hbuf (by omega)
      omega
    exact (hgood hnb).2 (by omega)

/-- C19, amended, at the octet-aligned narrowband packet 0x00 0x38 (one entry of type
7 and no payload behind it). -/
theorem C19_scan_invariants_witness :
    (∀ fuel code s', toc_loop false (mem [0x00, 0x38] 0) 2 fuel (tocInit false) ≠
      Flow.returned code s') ∧
    ∃ s i j, toc_loop false (mem [0x00, 0x38] 0) 2 (8 * 2 + 8) (tocInit false) =
        Flow.fallthrough s ∧
      ScanInv false (mem [0x00, 0x38] 0) 2 s i j ∧
      1 ≤ s.toc_item_threshold ∧ s.toc_item_threshold ≤ (if false then 6 else 8) ∧
      (s.end_tag = 0 → s.buf_index ≤ 2) ∧
      ∃ r, amr_handle_packet_mode false (fun _ => 0) AV_CODEC_ID_AMR_NB 1 (mem [0x00, 0x38] 0) 2 =
          some r ∧
        (r.ret = AVERROR_INVALIDDATA ↔ lastF false (mem [0x00, 0x38] 0) i j = 1) ∧
        (lastF false (mem [0x00, 0x38] 0) i j = 0 →
          0 ≤ (fun _ => (0 : Int)) (allocSize false 2 s.sid_count) → r.ret = 0) :=
  C19_scan_invariants false (fun _ => 0) AV_CODEC_ID_AMR_NB (mem [0x00, 0x38] 0) 2 (by decide)
    (fun _ => by show (0 : Int) ≠ AVERROR_INVALIDDATA; decide)

/-- C20: for every byte `b` and every one-hot mask `2 ^ j` (0x80 down to
0x01), `removeLowZeros` of the masked byte is 1 when that bit of `b` is set
and 0 otherwise, and `removeLowZeros` of that result is the result again. -/
theorem C20_strict_bit_read : ∀ j < 8, ∀ b < 256,
    removeLowZeros (2 ^ j &&& b) = some (if b.testBit j then 1 else 0) ∧
      removeLowZeros (if b.testBit j then 1 else 0) = some (if b.testBit j then 1 else 0) := by
  intro j hj b hb
  have h := removeLowZeros_mask_aux j hj b hb
  cases hbit : b.testBit j
  · rw [hbit] at h
    exact ⟨h, rfl⟩
  · rw [hbit] at h
    exact ⟨h, rfl⟩

/-- C20 at the mask 0x08 and the byte 0xA8. -/
theorem C20_strict_bit_read_witness :
    removeLowZeros (2 ^ 3 &&& 0xA8) = some 1 ∧ removeLowZeros 1 = some 1 :=
  C20_strict_bit_read 3 (by decide) 0xA8 (by decide)

/-- C21: `removeLowZeros` returns on every 8-bit input `x`, within the
eight loop tests of the model and with the same value for any larger fuel;
it returns 0 for 0, and for a nonzero `x` it returns the odd value `r` with
`x = r * 2 ^ k`, where `k` is the number of trailing zero bits of `x`: bit
`k` of `x` is set and the bits below it are zero. -/
theorem C21_removeLowZeros_odd_part (x : Nat) (hx : x < 256) :
    ∃ r, removeLowZeros x = some r ∧ r < 256 ∧
      (x = 0 → r = 0) ∧
      (x ≠ 0 → (∀ fuel, 8 ≤ fuel → removeLowZeros_loop fuel x = some r) ∧
        r % 2 = 1 ∧ x = r * 2 ^ trailingZeroBits x ∧
        trailingZeroBits x < 8 ∧
        x.testBit (trailingZeroBits x) = true ∧
        ∀ i < trailingZeroBits x, x.testBit i = false) := by
  obtain ⟨h1, h2⟩ := removeLowZeros_odd_aux x hx
  refine ⟨x / 2 ^ trailingZeroBits x, h1, ?_, ?_, fun hne => ⟨?_, h2 hne⟩⟩
  · exact Nat.lt_of_le_of_lt (Nat.div_le_self _ _) hx
  · intro h0; subst h0; simp
  · have hl : removeLowZeros_loop 8 x = some (x / 2 ^ trailingZeroBits x) := by
      rw [← h1, removeLowZeros, if_neg hne]
    exact removeLowZeros_loop_fuel x _ hl

/-- C21 at the input 6: one trailing zero bit, and the result 3 is neither 0
nor 1. -/
theorem C21_removeLowZeros_odd_part_witness :
    ∃ r, removeLowZeros 6 = some r ∧ r = 3 ∧ r ≠ 0 ∧ r ≠ 1 ∧ trailingZeroBits 6 = 1 ∧
      6 = r * 2 ^ trailingZeroBits 6 ∧
      ∀ fuel, 8 ≤ fuel → removeLowZeros_loop fuel 6 = some r := by
  obtain ⟨r, h, _, _, hodd⟩ := C21_removeLowZeros_odd_part 6 (by decide)
  obtain ⟨hfuel, _, hmul, _⟩ := hodd (by decide)
  have htz : trailingZeroBits 6 = 1 := by decide
  have hr : r = 3 := by rw [htz] at hmul; omega
  exact ⟨r, h, hr, by omega, by omega, htz, hmul, hfuel⟩

end AMR
